import Mathlib

set_option maxRecDepth 8000

/-!
Shallow embedding of the wiki note manager in `src/main.py`.

Strings are modelled as `List Char`.  The Python regular-expression
operations used by the program are modelled operationally:

* `re.findall(r'\[\[(.+?)\]\]', title)` — a left-to-right scan that, at each
  occurrence of `[[`, lazily looks for the earliest following `]]` with a
  nonempty content containing no newline (`findMarkers`);
* `re.sub(r'\[\[|\]\]', '', title)` — a left-to-right scan removing every
  occurrence of `[[` or `]]` (`parseUname`);
* `str.replace(old, new)` — left-to-right non-overlapping replacement of all
  occurrences (`replaceAll`);
* `pat in s` — substring containment (`hasSub`);
* `re.escape` (Python ≥ 3.7) — backslash-escaping of the characters
  `()[]\x7b\x7d?*+-|^$\.&~#`, space, tab, newline, CR, VT and FF
  (`reEscape`).

The mutable `Wiki` object becomes a `Wiki` structure passed explicitly;
`notes` is an insertion-ordered list (mirroring Python dict order) and
`uname_to_id` an insertion-ordered association list with Python dict
update semantics.  Persistence (`_save_data`/`_load_data`) is I/O-only and
does not affect the in-memory graph semantics, so it is not modelled.

The worklist loop `_propagate_change_recursively` is modelled by the
fuel-indexed structural recursion `propLoopF`; `propLoopF` returns `none`
exactly when the fuel runs out with a nonempty queue, so termination of
the Python loop is the theorem that with fuel `fuelBound` the result is
always `some _`.
-/

/-- The opening marker delimiter `[[`. -/
def dOpen : List Char := ['[', '[']

/-- The closing marker delimiter `]]`. -/
def dClose : List Char := [']', ']']

/-- `startsWithL p s` = `s` starts with `p` (Python `s.startswith(p)`). -/
def startsWithL : List Char → List Char → Bool
  | [], _ => true
  | _ :: _, [] => false
  | p :: ps, c :: cs => p == c && startsWithL ps cs

/-- `hasSub pat s` = Python `pat in s` (substring containment). -/
def hasSub (pat : List Char) : List Char → Bool
  | [] => startsWithL pat []
  | c :: rest => startsWithL pat (c :: rest) || hasSub pat rest

/-- The lazy content scan of the regex `\[\[(.+?)\]\]` once `[[` has been
consumed: finds the shortest nonempty newline-free content followed by
`]]`, returning the content and the remainder after the `]]`. -/
def scanContent : List Char → Option (List Char × List Char)
  | [] => none
  | c :: rest =>
    if c == '\n' then none
    else
      match rest with
      | ']' :: ']' :: rem => some ([c], rem)
      | _ =>
        match scanContent rest with
        | some (content, rem) => some (c :: content, rem)
        | none => none

/-- Fuelled scan of `re.findall(r'\[\[(.+?)\]\]', s)`: on a failed match at
an occurrence of `[[` the engine retries from the next position. -/
def findMarkersF : Nat → List Char → List (List Char)
  | _, [] => []
  | 0, _ => []
  | f + 1, '[' :: '[' :: rest =>
    match scanContent rest with
    | some (content, rem) => content :: findMarkersF f rem
    | none => findMarkersF f ('[' :: rest)
  | f + 1, _ :: rest => findMarkersF f rest

/-- `re.findall(r'\[\[(.+?)\]\]', s)`: the list of marker contents of `s`,
in order of occurrence. -/
def findMarkers (s : List Char) : List (List Char) := findMarkersF s.length s

/-- `Wiki._parse_uname`: `re.sub(r'\[\[|\]\]', '', title)` — removes every
occurrence of `[[` or `]]`, scanning left to right. -/
def parseUname : List Char → List Char
  | [] => []
  | '[' :: '[' :: rest => parseUname rest
  | ']' :: ']' :: rest => parseUname rest
  | c :: rest => c :: parseUname rest

/-- `Wiki._is_title_valid`: no marker content may itself contain `[[` or
`]]` (no nested markers). -/
def isTitleValid (title : List Char) : Bool :=
  !((findMarkers title).any (fun content => hasSub dOpen content || hasSub dClose content))

/-- Fuelled `str.replace(pat, rep)`: replaces all non-overlapping
occurrences left to right (`pat` is nonempty at every call site, matching
the program, which only replaces whole markers). -/
def replaceAllF (pat rep : List Char) : Nat → List Char → List Char
  | _, [] => []
  | 0, s => s
  | f + 1, c :: rest =>
    if startsWithL pat (c :: rest) && !(pat.length == 0) then
      rep ++ replaceAllF pat rep f (rest.drop (pat.length - 1))
    else
      c :: replaceAllF pat rep f rest

/-- `s.replace(pat, rep)` with sufficient fuel. -/
def replaceAll (pat rep s : List Char) : List Char := replaceAllF pat rep s.length s

/-- First-occurrence deduplication; fixes the (implementation-defined)
iteration order of the Python `set` of marker contents. -/
def dedupFirst : List (List Char) → List (List Char)
  | [] => []
  | x :: xs => x :: (dedupFirst xs).filter (fun y => !(y == x))

/-- Python ≥ 3.7 `re.escape` special-character set
`()[]\x7b\x7d?*+-|^$\.&~#` plus space, tab, LF, CR, VT, FF. -/
def isReSpecial (c : Char) : Bool :=
  c == '(' || c == ')' || c == '[' || c == ']' || c == Char.ofNat 123 || c == Char.ofNat 125 ||
  c == '?' || c == '*' || c == '+' || c == '-' || c == '|' || c == '^' || c == '$' ||
  c == '\\' || c == '.' || c == '&' || c == '~' || c == '#' || c == ' ' ||
  c == '\t' || c == '\n' || c == '\r' || c == Char.ofNat 11 || c == Char.ofNat 12

/-- `re.escape(s)` for Python ≥ 3.7. -/
def reEscape : List Char → List Char
  | [] => []
  | c :: rest => (if isReSpecial c then ['\\', c] else [c]) ++ reEscape rest

/-- `[[name]]`, the marker for a canonical name. -/
def mkMarker (u : List Char) : List Char := dOpen ++ u ++ dClose

/-- One note record: `{"id": ..., "title": ..., "uname": ...}`. -/
structure Note where
  id : Nat
  title : List Char
  uname : List Char
deriving DecidableEq

/-- Association list with Python dict semantics for `uname_to_id`:
lookup of a key. -/
def umFind : List (List Char × Nat) → List Char → Option Nat
  | [], _ => none
  | (k, v) :: rest, key => if k == key then some v else umFind rest key

/-- Python dict assignment `m[k] = v`: updates in place if the key is
present, otherwise appends. -/
def umInsert : List (List Char × Nat) → List Char → Nat → List (List Char × Nat)
  | [], key, v => [(key, v)]
  | (k, w) :: rest, key, v =>
    if k == key then (k, v) :: rest else (k, w) :: umInsert rest key v

/-- Python dict deletion `del m[k]` (keys are unique in a dict, so
removing the first occurrence models it). -/
def umErase : List (List Char × Nat) → List Char → List (List Char × Nat)
  | [], _ => []
  | (k, v) :: rest, key => if k == key then rest else (k, v) :: umErase rest key

/-- The whole in-memory state of the `Wiki` object. -/
structure Wiki where
  notes : List Note
  uname_to_id : List (List Char × Nat)
  next_id : Nat
deriving DecidableEq

/-- The state of a fresh `Wiki` (no data file present). -/
def emptyWiki : Wiki := { notes := [], uname_to_id := [], next_id := 1 }

/-- `note_id in self.notes` / `self.notes[note_id]` lookup. -/
def getNote (w : Wiki) (i : Nat) : Option Note :=
  w.notes.find? (fun nt => nt.id == i)

/-- `Wiki._calculate_links`: the set of marker contents of the note's
title (empty if the id is not live). -/
def calcLinks (w : Wiki) (i : Nat) : List (List Char) :=
  match getNote w i with
  | none => []
  | some nt => dedupFirst (findMarkers nt.title)

/-- `Wiki._calculate_backlinks`: ids of notes whose title contains, as a
literal substring, `[[` ++ `re.escape(target)` ++ `]]` — the program
escapes the name for a regex but then tests plain containment. -/
def calcBacklinks (w : Wiki) (target : List Char) : List Nat :=
  ((w.notes.filter (fun nt => hasSub (dOpen ++ reEscape target ++ dClose) nt.title)).map Note.id)

/-- Outcome of a mutating operation (the program returns message strings;
only the kind of message matters for the semantics). -/
inductive WikiResult where
  | ok
  | invalidTitle
  | emptyName
  | duplicateName
  | noteNotFound
deriving DecidableEq

/-- Insertion of a fresh note with the next id (the common step of
`Wiki.touch` for the main note and for each placeholder): append the
record, index its uname, bump the counter. -/
def insertNote (w : Wiki) (t u : List Char) : Wiki :=
  { notes := w.notes ++ [{ id := w.next_id, title := t, uname := u }],
    uname_to_id := umInsert w.uname_to_id u w.next_id,
    next_id := w.next_id + 1 }

/-- The placeholder-creation loop at the end of `Wiki.touch`: for each
linked uname not yet in the index, create a note whose title and uname
both equal the marker content. -/
def addPlaceholders : Wiki → List (List Char) → Wiki
  | w, [] => w
  | w, u :: rest =>
    if (umFind w.uname_to_id u).isSome then addPlaceholders w rest
    else addPlaceholders (insertNote w u u) rest

/-- `Wiki.touch`. -/
def touch (w : Wiki) (title : List Char) : WikiResult × Wiki :=
  if isTitleValid title = false then (WikiResult.invalidTitle, w)
  else
    let uname := parseUname title
    if uname.isEmpty then (WikiResult.emptyName, w)
    else if (umFind w.uname_to_id uname).isSome then (WikiResult.duplicateName, w)
    else
      (WikiResult.ok,
       addPlaceholders (insertNote w title uname)
         (calcLinks (insertNote w title uname) w.next_id))

/-- The in-place update of one note (lines 216–220 of `src/main.py`, also
the update part of `Wiki.edit`): store `updated_title`, recompute the
uname from it, and move the index entry from `old_uname` to the new
uname. -/
def rewriteNote (w : Wiki) (i : Nat) (updated_title old_uname : List Char) : Wiki :=
  { notes := w.notes.map (fun nt =>
      if nt.id == i then
        { nt with title := updated_title, uname := parseUname updated_title }
      else nt),
    uname_to_id := umInsert (umErase w.uname_to_id old_uname) (parseUname updated_title) i,
    next_id := w.next_id }

/-- One fuel-counted execution of `Wiki._propagate_change_recursively`'s
`while` loop.  Returns `none` exactly when the fuel is exhausted with a
nonempty queue. -/
def propLoopF (old_text new_text : List Char) :
    Nat → Wiki → List Nat → List Nat → Option Wiki
  | _, w, [], _ => some w
  | 0, _, _ :: _, _ => none
  | f + 1, w, i :: rest, processed =>
    if i ∈ processed then propLoopF old_text new_text f w rest processed
    else
      match getNote w i with
      | none => propLoopF old_text new_text f w rest (i :: processed)
      | some note =>
        if hasSub old_text note.title = false then
          propLoopF old_text new_text f w rest (i :: processed)
        else if note.uname == parseUname (replaceAll old_text new_text note.title) then
          propLoopF old_text new_text f
            (rewriteNote w i (replaceAll old_text new_text note.title) note.uname)
            rest (i :: processed)
        else
          propLoopF old_text new_text f
            (rewriteNote w i (replaceAll old_text new_text note.title) note.uname)
            (((calcBacklinks
                  (rewriteNote w i (replaceAll old_text new_text note.title) note.uname)
                  note.uname).filter
                (fun j => decide (¬ j ∈ (i :: processed)))).reverse ++ rest)
            (i :: processed)

/-- Fuel sufficient for the worklist loop (proved below): with `n` notes,
at most `n` pops can enlarge the queue, each by at most `n`. -/
def fuelBound (w : Wiki) : Nat := w.notes.length * (w.notes.length + 2) + 1

/-- `Wiki._propagate_change_recursively`, seeded with all current note
ids and with the edited note pre-marked processed. -/
def propagate (w : Wiki) (edited_note_id : Nat) (old_text new_text : List Char) : Wiki :=
  (propLoopF old_text new_text (fuelBound w) w (w.notes.map Note.id) [edited_note_id]).getD w

/-- The mutation tail of `Wiki.edit` (runs after all checks passed;
`new_uname` is always `parseUname new_title` at the call sites, matching
line 160 of the program). -/
def editApply (w : Wiki) (note_id : Nat) (note : Note)
    (new_title new_uname : List Char) : WikiResult × Wiki :=
  if note.uname == new_uname then
    (WikiResult.ok, rewriteNote w note_id new_title note.uname)
  else
    (WikiResult.ok,
     propagate (rewriteNote w note_id new_title note.uname) note_id
       (mkMarker note.uname) (mkMarker new_uname))

/-- `Wiki.edit`. -/
def edit (w : Wiki) (note_id : Nat) (new_title : List Char) : WikiResult × Wiki :=
  if isTitleValid new_title = false then (WikiResult.invalidTitle, w)
  else
    match getNote w note_id with
    | none => (WikiResult.noteNotFound, w)
    | some note =>
      let new_uname := parseUname new_title
      if new_uname.isEmpty then (WikiResult.emptyName, w)
      else
        match umFind w.uname_to_id new_uname with
        | some j =>
          if j != note_id then (WikiResult.duplicateName, w)
          else editApply w note_id note new_title new_uname
        | none => editApply w note_id note new_title new_uname

/-- `Wiki.rm`. -/
def rm (w : Wiki) (i : Nat) : WikiResult × Wiki :=
  match getNote w i with
  | none => (WikiResult.noteNotFound, w)
  | some nt =>
    (WikiResult.ok,
     { notes := w.notes.filter (fun x => !(x.id == i)),
       uname_to_id := umErase w.uname_to_id nt.uname,
       next_id := w.next_id })

/-- The semantic content of `Wiki.link`: each marker of the note's title
paired with its resolution (the id it resolves to, or `none` for a
missing note). -/
def linkEntries (w : Wiki) (i : Nat) : List (List Char × Option Nat) :=
  (calcLinks w i).map (fun u => (u, umFind w.uname_to_id u))

/-- Insertion into a sorted list of ids. -/
def insNat (x : Nat) : List Nat → List Nat
  | [] => [x]
  | y :: ys => if x ≤ y then x :: y :: ys else y :: insNat x ys

/-- Sorting of ids (the program prints backlinks sorted by id). -/
def sortNat : List Nat → List Nat
  | [] => []
  | x :: xs => insNat x (sortNat xs)

/-- The semantic content of `Wiki.backlink`: the sorted ids of notes whose
title contains the (escaped) marker of the note's uname, or `none` when
the id is not live. -/
def backlinkResult (w : Wiki) (i : Nat) : Option (List Nat) :=
  match getNote w i with
  | none => none
  | some nt => some (sortNat (calcBacklinks w nt.uname))

/-- Observational equality of states: Python dicts compare equal
regardless of insertion order, so the name index is compared
extensionally. -/
def stateEquiv (w1 w2 : Wiki) : Prop :=
  w1.notes = w2.notes ∧ w1.next_id = w2.next_id ∧
    ∀ k, umFind w1.uname_to_id k = umFind w2.uname_to_id k

/-- States reachable from a fresh wiki by the three mutating operations. -/
inductive Reachable : Wiki → Prop where
  | empty : Reachable emptyWiki
  | touch : ∀ w t, Reachable w → Reachable (touch w t).2
  | edit : ∀ w i t, Reachable w → Reachable (edit w i t).2
  | rm : ∀ w i, Reachable w → Reachable (rm w i).2

/-- The spec's description of canonical-name computation, as a relation:
the name is the title with all marker delimiters (`[[` / `]]`) removed and
every other character preserved in its original order; the guard on
`keep` says a delimiter occurrence is never skipped. -/
inductive DelimStripped : List Char → List Char → Prop where
  | nil : DelimStripped [] []
  | strip2 : ∀ d t r, (d = dOpen ∨ d = dClose) →
      DelimStripped t r → DelimStripped (d ++ t) r
  | keep : ∀ c t r, startsWithL dOpen (c :: t) = false →
      startsWithL dClose (c :: t) = false →
      DelimStripped t r → DelimStripped (c :: t) (c :: r)

/-- The number of live note ids not yet processed (part of the
termination measure of the worklist loop). -/
def unprocCount (w : Wiki) (processed : List Nat) : Nat :=
  ((w.notes.map Note.id).filter (fun j => decide (¬ j ∈ processed))).length

/-- Potential of a worklist state: strictly decreases at every loop
iteration. -/
def phiMeasure (w : Wiki) (queue processed : List Nat) : Nat :=
  queue.length + (w.notes.length + 1) * unprocCount w processed

/-- Scenario A→B→C: note 1 is C, note 2 is B (its title embeds C's
marker), note 3 is A (its title embeds B's marker). -/
def c1w3 : Wiki :=
  (touch ((touch ((touch emptyWiki ("C".toList)).2) ("B [[C]]".toList)).2) ("A [[B C]]".toList)).2

/-- Scenario A→B→C after renaming C (note 1) to the fresh name `Cx`. -/
def c1w4 : Wiki := (edit c1w3 1 ("Cx".toList)).2

/-- Collision scenario: notes `X B`, `X [[A]]` (with auto-created
placeholder `A`, id 3). -/
def c2w2 : Wiki := (touch ((touch emptyWiki ("X B".toList)).2) ("X [[A]]".toList)).2

/-- Collision scenario after renaming the placeholder `A` (note 3) to
`B`: propagation rewrites note 2's uname to `X B`, colliding with note 1. -/
def c2w3 : Wiki := (edit c2w2 3 ("B".toList)).2

/-- Collision scenario, continued: renaming note 2 away to `Z` deletes
the index entry `X B` that note 1 still carries as its name. -/
def c8w4 : Wiki := (edit c2w3 2 ("Z".toList)).2

/-- One note `A`, then renamed to a title that embeds the old marker. -/
def c3w2 : Wiki := (edit ((touch emptyWiki ("A".toList)).2) 1 ("was [[A]] now B".toList)).2

/-- A one-note state used to witness the identical-title no-op. -/
def c3base : Wiki := (touch emptyWiki ("A".toList)).2

/-- A self-referencing note whose canonical name contains a space. -/
def c10w : Wiki := (touch emptyWiki ("[[A B]]".toList)).2

/-- A self-referencing note whose canonical name has no regex-special
characters. -/
def c10p : Wiki := (touch emptyWiki ("[[X]]".toList)).2

theorem umFind_insert_self (m : List (List Char × Nat)) (k : List Char) (v : Nat) :
    umFind (umInsert m k v) k = some v := by
  induction m with
  | nil => simp [umInsert, umFind]
  | cons p rest ih =>
    obtain ⟨k', v'⟩ := p
    by_cases h : (k' == k) = true
    · simp [umInsert, h, umFind]
    · simp only [umInsert, h, if_false, Bool.false_eq_true]
      simp [umFind, h, ih]

theorem umFind_insert_ne (m : List (List Char × Nat)) (k key : List Char) (v : Nat)
    (hne : key ≠ k) : umFind (umInsert m k v) key = umFind m key := by
  induction m with
  | nil =>
    have hk : (k == key) = false := beq_eq_false_iff_ne.mpr (fun h => hne h.symm)
    simp [umInsert, umFind, hk]
  | cons p rest ih =>
    obtain ⟨k', v'⟩ := p
    by_cases h : (k' == k) = true
    · have hk : (k' == key) = false := by
        apply beq_eq_false_iff_ne.mpr
        intro he
        exact hne (by rw [← he]; exact eq_of_beq h)
      simp [umInsert, h, umFind, hk]
    · simp [umInsert, h, umFind, ih]

theorem umFind_erase_ne (m : List (List Char × Nat)) (k key : List Char)
    (hne : key ≠ k) : umFind (umErase m k) key = umFind m key := by
  induction m with
  | nil => rfl
  | cons p rest ih =>
    obtain ⟨k', v'⟩ := p
    by_cases h : (k' == k) = true
    · have hk : (k' == key) = false := by
        apply beq_eq_false_iff_ne.mpr
        intro he
        exact hne (by rw [← he]; exact eq_of_beq h)
      simp [umErase, h, umFind, hk]
    · simp [umErase, h, umFind, ih]

theorem umFind_none_of_not_mem (m : List (List Char × Nat)) (k : List Char)
    (h : ¬ k ∈ m.map Prod.fst) : umFind m k = none := by
  induction m with
  | nil => rfl
  | cons p rest ih =>
    obtain ⟨k', v'⟩ := p
    simp only [List.map_cons, List.mem_cons, not_or] at h
    have hk : (k' == k) = false := beq_eq_false_iff_ne.mpr (fun he => h.1 he.symm)
    simp [umFind, hk, ih h.2]

theorem umFind_erase_self (m : List (List Char × Nat)) (k : List Char)
    (hnd : (m.map Prod.fst).Nodup) : umFind (umErase m k) k = none := by
  induction m with
  | nil => rfl
  | cons p rest ih =>
    obtain ⟨k', v'⟩ := p
    simp only [List.map_cons, List.nodup_cons] at hnd
    by_cases h : (k' == k) = true
    · have : ¬ k ∈ rest.map Prod.fst := (eq_of_beq h) ▸ hnd.1
      simp [umErase, h, umFind_none_of_not_mem rest k this]
    · simp [umErase, h, umFind, ih hnd.2]

theorem startsWithL_append_drop (p : List Char) :
    ∀ l, startsWithL p l = true → l = p ++ l.drop p.length := by
  induction p with
  | nil => intro l _; simp
  | cons c cs ih =>
    intro l h
    cases l with
    | nil => simp [startsWithL] at h
    | cons a as =>
      simp only [startsWithL, Bool.and_eq_true, beq_iff_eq] at h
      obtain ⟨rfl, h2⟩ := h
      simpa using ih as h2

theorem hasSub_cons (pat : List Char) (c : Char) (rest : List Char) :
    hasSub pat (c :: rest) = (startsWithL pat (c :: rest) || hasSub pat rest) := rfl

theorem replaceAllF_no_occ (pat rep : List Char) :
    ∀ f s, hasSub pat s = false → replaceAllF pat rep f s = s := by
  intro f
  induction f with
  | zero => intro s _; cases s <;> rfl
  | succ f ih =>
    intro s h
    cases s with
    | nil => rfl
    | cons c rest =>
      rw [hasSub_cons, Bool.or_eq_false_iff] at h
      simp [replaceAllF, h.1, ih rest h.2]

theorem replaceAll_no_occ (pat rep s : List Char) (h : hasSub pat s = false) :
    replaceAll pat rep s = s := replaceAllF_no_occ pat rep s.length s h

theorem replaceAllF_self (pat : List Char) :
    ∀ f s, replaceAllF pat pat f s = s := by
  intro f
  induction f with
  | zero => intro s; cases s <;> rfl
  | succ f ih =>
    intro s
    cases s with
    | nil => rfl
    | cons c rest =>
      by_cases h : (startsWithL pat (c :: rest) && !(pat.length == 0)) = true
      · simp only [replaceAllF, h, if_true, ih]
        rw [Bool.and_eq_true] at h
        obtain ⟨h1, h2⟩ := h
        have hp : pat.length ≠ 0 := by simpa using h2
        obtain ⟨m, hm⟩ : ∃ m, pat.length = m + 1 := by
          cases hl : pat.length with
          | zero => exact absurd hl hp
          | succ m => exact ⟨m, rfl⟩
        have := startsWithL_append_drop pat (c :: rest) h1
        rw [hm] at this ⊢
        simpa [List.drop_succ_cons] using this.symm
      · simp [replaceAllF, h, ih]

theorem replaceAll_self (pat s : List Char) : replaceAll pat pat s = s :=
  replaceAllF_self pat s.length s

theorem map_update_id (l : List Note) (i : Nat) (t u : List Char) :
    (l.map (fun nt => if nt.id == i then { nt with title := t, uname := u } else nt)).map
      Note.id = l.map Note.id := by
  rw [List.map_map]
  apply List.map_congr_left
  intro nt _
  by_cases h : (nt.id == i) = true <;> simp [Function.comp, h]

theorem getNote_mem {w : Wiki} {i : Nat} {nt : Note} (h : getNote w i = some nt) :
    nt ∈ w.notes ∧ nt.id = i :=
  ⟨List.mem_of_find?_eq_some h, by simpa using List.find?_some h⟩

theorem getNote_none_not_mem {w : Wiki} {i : Nat} (h : getNote w i = none) :
    ¬ i ∈ w.notes.map Note.id := by
  rw [getNote, List.find?_eq_none] at h
  intro hmem
  obtain ⟨nt, hnt, hid⟩ := List.mem_map.mp hmem
  exact h nt hnt (by simp [hid])

theorem getNote_some_mem_ids {w : Wiki} {i : Nat} {nt : Note} (h : getNote w i = some nt) :
    i ∈ w.notes.map Note.id := by
  obtain ⟨hm, hid⟩ := getNote_mem h
  exact List.mem_map.mpr ⟨nt, hm, hid⟩

theorem calcBacklinks_length_le (w : Wiki) (t : List Char) :
    (calcBacklinks w t).length ≤ w.notes.length := by
  rw [calcBacklinks, List.length_map]
  exact List.length_filter_le _ _

theorem filter_notmem_cons_le (ids : List Nat) (i : Nat) (p : List Nat) :
    (ids.filter (fun j => decide (¬ j ∈ i :: p))).length ≤
      (ids.filter (fun j => decide (¬ j ∈ p))).length := by
  apply List.Sublist.length_le
  apply List.monotone_filter_right
  intro x hx
  simp only [decide_eq_true_eq, List.mem_cons, not_or] at hx ⊢
  exact hx.2

theorem filter_notmem_cons_lt (ids : List Nat) (i : Nat) (p : List Nat)
    (hi : i ∈ ids) (hp : ¬ i ∈ p) :
    (ids.filter (fun j => decide (¬ j ∈ i :: p))).length <
      (ids.filter (fun j => decide (¬ j ∈ p))).length := by
  induction ids with
  | nil => cases hi
  | cons a rest ih =>
    rw [List.filter_cons, List.filter_cons]
    by_cases hai : a = i
    · subst hai
      have e1 : decide (¬ a ∈ a :: p) = false := by simp
      have e2 : decide (¬ a ∈ p) = true := by simp [hp]
      rw [e1, e2]
      simp only [Bool.false_eq_true, if_false, if_true, List.length_cons]
      have := filter_notmem_cons_le rest a p
      omega
    · have hmem : i ∈ rest := by
        cases hi with
        | head => exact absurd rfl hai
        | tail _ h => exact h
      have key := ih hmem
      by_cases h2 : a ∈ p
      · have e1 : decide (¬ a ∈ i :: p) = false := by
          simp [List.mem_cons_of_mem i h2]
        have e2 : decide (¬ a ∈ p) = false := by simp [h2]
        rw [e1, e2]
        simpa using key
      · have e1 : decide (¬ a ∈ i :: p) = true := by
          simp only [decide_eq_true_eq, List.mem_cons, not_or]
          exact ⟨hai, h2⟩
        have e2 : decide (¬ a ∈ p) = true := by simp [h2]
        rw [e1, e2]
        simp only [if_true, List.length_cons]
        omega

theorem filter_notmem_cons_eq (ids : List Nat) (i : Nat) (p : List Nat)
    (hi : ¬ i ∈ ids) :
    ids.filter (fun j => decide (¬ j ∈ i :: p)) = ids.filter (fun j => decide (¬ j ∈ p)) := by
  apply List.filter_congr
  intro x hx
  have hxi : x ≠ i := by rintro rfl; exact hi hx
  simp [List.mem_cons, hxi]

theorem rewriteNote_ids (w : Wiki) (i : Nat) (t old_u : List Char) :
    (rewriteNote w i t old_u).notes.map Note.id = w.notes.map Note.id :=
  map_update_id w.notes i t (parseUname t)

theorem rewriteNote_length (w : Wiki) (i : Nat) (t old_u : List Char) :
    (rewriteNote w i t old_u).notes.length = w.notes.length := by
  have h := congrArg List.length (rewriteNote_ids w i t old_u)
  simpa using h

theorem unprocCount_rewriteNote (w : Wiki) (i : Nat) (t old_u : List Char) (p : List Nat) :
    unprocCount (rewriteNote w i t old_u) p = unprocCount w p := by
  rw [unprocCount, unprocCount, rewriteNote_ids]

theorem unprocCount_le (w : Wiki) (p : List Nat) :
    unprocCount w p ≤ w.notes.length := by
  rw [unprocCount]
  have h := List.length_filter_le (fun j => decide (¬ j ∈ p)) (w.notes.map Note.id)
  simpa using h

theorem propLoopF_isSome (o n : List Char) :
    ∀ f w q p, phiMeasure w q p < f → (propLoopF o n f w q p).isSome = true := by
  intro f
  induction f with
  | zero => intro w q p h; exact absurd h (Nat.not_lt_zero _)
  | succ f ih =>
    intro w q p h
    cases q with
    | nil => rfl
    | cons i rest =>
      have hphi : phiMeasure w (i :: rest) p ≤ f := Nat.lt_succ_iff.mp h
      rw [phiMeasure, List.length_cons] at hphi
      rw [propLoopF]
      by_cases hip : i ∈ p
      · rw [if_pos hip]
        apply ih
        rw [phiMeasure]
        omega
      · rw [if_neg hip]
        cases hg : getNote w i with
        | none =>
          apply ih
          rw [phiMeasure]
          have hids : ¬ i ∈ w.notes.map Note.id := getNote_none_not_mem hg
          have hcnt : unprocCount w (i :: p) = unprocCount w p := by
            rw [unprocCount, unprocCount,
              filter_notmem_cons_eq (w.notes.map Note.id) i p hids]
          rw [hcnt]
          omega
        | some note =>
          dsimp only
          have hmem : i ∈ w.notes.map Note.id := getNote_some_mem_ids hg
          have hU : unprocCount w (i :: p) < unprocCount w p := by
            rw [unprocCount, unprocCount]
            exact filter_notmem_cons_lt (w.notes.map Note.id) i p hmem hip
          have hmul : (w.notes.length + 1) * unprocCount w (i :: p) + (w.notes.length + 1)
              ≤ (w.notes.length + 1) * unprocCount w p := by
            calc (w.notes.length + 1) * unprocCount w (i :: p) + (w.notes.length + 1)
                = (w.notes.length + 1) * (unprocCount w (i :: p) + 1) := by ring
              _ ≤ (w.notes.length + 1) * unprocCount w p :=
                  Nat.mul_le_mul_left _ hU
          by_cases hoc : hasSub o note.title = false
          · rw [if_pos hoc]
            apply ih
            rw [phiMeasure]
            omega
          · rw [if_neg hoc]
            by_cases hsame : (note.uname == parseUname (replaceAll o n note.title)) = true
            · rw [if_pos hsame]
              apply ih
              rw [phiMeasure, unprocCount_rewriteNote, rewriteNote_length]
              omega
            · rw [if_neg hsame]
              apply ih
              rw [phiMeasure, unprocCount_rewriteNote, rewriteNote_length,
                List.length_append, List.length_reverse]
              have hreq : (((calcBacklinks
                    (rewriteNote w i (replaceAll o n note.title) note.uname)
                    note.uname).filter (fun j => decide (¬ j ∈ (i :: p)))).length
                  ≤ w.notes.length) := by
                calc (((calcBacklinks (rewriteNote w i (replaceAll o n note.title) note.uname)
                      note.uname).filter (fun j => decide (¬ j ∈ (i :: p)))).length)
                    ≤ (calcBacklinks (rewriteNote w i (replaceAll o n note.title) note.uname)
                        note.uname).length := List.length_filter_le _ _
                  _ ≤ (rewriteNote w i (replaceAll o n note.title) note.uname).notes.length :=
                      calcBacklinks_length_le _ _
                  _ = w.notes.length := rewriteNote_length w i _ note.uname
              omega

/-- `fuelBound` always exceeds the initial potential of the worklist. -/
theorem fuelBound_sufficient (w : Wiki) (eid : Nat) :
    phiMeasure w (w.notes.map Note.id) [eid] < fuelBound w := by
  rw [phiMeasure, fuelBound, List.length_map]
  have h1 : unprocCount w [eid] ≤ w.notes.length := unprocCount_le w [eid]
  have h2 : (w.notes.length + 1) * unprocCount w [eid]
      ≤ (w.notes.length + 1) * w.notes.length := Nat.mul_le_mul_left _ h1
  have h3 : (w.notes.length + 1) * w.notes.length
      = w.notes.length * w.notes.length + w.notes.length := by ring
  have h4 : w.notes.length * (w.notes.length + 2)
      = w.notes.length * w.notes.length + 2 * w.notes.length := by ring
  omega

/-- **C4**: the rename-propagation worklist loop terminates for every
finite graph state and every old/new marker pair: seeded with all note
ids and fuel `fuelBound w`, the loop always reaches the empty queue
(`propLoopF` returns `none` only when fuel runs out with a nonempty
queue, so `isSome` is exactly termination with an empty queue). -/
theorem claim4_terminates (old_text new_text : List Char) (w : Wiki) (edited_note_id : Nat) :
    (propLoopF old_text new_text (fuelBound w) w (w.notes.map Note.id)
      [edited_note_id]).isSome = true :=
  propLoopF_isSome old_text new_text (fuelBound w) w (w.notes.map Note.id)
    [edited_note_id] (fuelBound_sufficient w edited_note_id)

theorem propagate_eq (w : Wiki) (eid : Nat) (o n : List Char) :
    propLoopF o n (fuelBound w) w (w.notes.map Note.id) [eid] = some (propagate w eid o n) := by
  have h := propLoopF_isSome o n (fuelBound w) w (w.notes.map Note.id) [eid]
    (fuelBound_sufficient w eid)
  rw [propagate]
  cases hres : propLoopF o n (fuelBound w) w (w.notes.map Note.id) [eid] with
  | none => rw [hres] at h; simp at h
  | some res => simp

/-- **C1 (counterexample)**: in the three-note chain `C` (id 1),
`B [[C]]` (id 2), `A [[B C]]` (id 3), renaming note 1 to the fresh name
`Cx` rewrites note 2's title and uname and leaves note 3 textually
unchanged — but note 3's forward-link marker `B C` (the link to note 2)
then resolves to nothing, refuting the claim's conjunct "A's forward
link to B still resolves to B". -/
theorem claim1_counterexample :
    (edit c1w3 1 ("Cx".toList)).1 = WikiResult.ok ∧
    getNote c1w4 2 = some { id := 2, title := "B [[Cx]]".toList, uname := "B Cx".toList } ∧
    getNote c1w4 3 = some { id := 3, title := "A [[B C]]".toList, uname := "A B C".toList } ∧
    ("B C".toList) ∈ calcLinks c1w4 3 ∧
    umFind c1w4.uname_to_id ("B C".toList) = none := by decide

/-- **C1 (amended)**: in the A→B→C chain, renaming C to the fresh name
`Cx` replaces all occurrences of C's old marker in B's title (a
replace-all of `[[C]]` by `[[Cx]]`), recomputes B's uname and index
entry, and leaves A's title textually unchanged; A's forward-link marker
still names B's *old* uname, which no longer resolves and is reported as
missing (only markers matching the renamed name are rewritten). -/
theorem claim1_amended :
    (edit c1w3 1 ("Cx".toList)).1 = WikiResult.ok ∧
    getNote c1w4 2 = some
      { id := 2,
        title := replaceAll (mkMarker ("C".toList)) (mkMarker ("Cx".toList)) ("B [[C]]".toList),
        uname := parseUname ("B [[Cx]]".toList) } ∧
    umFind c1w4.uname_to_id ("B Cx".toList) = some 2 ∧
    getNote c1w4 3 = some { id := 3, title := "A [[B C]]".toList, uname := "A B C".toList } ∧
    ("B C".toList, (none : Option Nat)) ∈ linkEntries c1w4 3 ∧
    umFind c1w4.uname_to_id ("C".toList) = none ∧
    umFind c1w4.uname_to_id ("Cx".toList) = some 1 := by decide

/-- **C2 (code bug)**: after `touch "X B"; touch "X [[A]]"; edit 3 "B"`,
propagation rewrites note 2's uname to `X B` without any collision
check: notes 1 and 2 are both live with canonical name `X B`, and the
name index maps `X B` to note 2, so `name_index[note.name] == note.id`
fails for note 1 — the spec's uniqueness/consistency invariant is
violated by the code. -/
theorem claim2_bug :
    (edit c2w2 3 ("B".toList)).1 = WikiResult.ok ∧
    getNote c2w3 1 = some { id := 1, title := "X B".toList, uname := "X B".toList } ∧
    getNote c2w3 2 = some { id := 2, title := "X [[B]]".toList, uname := "X B".toList } ∧
    umFind c2w3.uname_to_id ("X B".toList) = some 2 := by decide

/-- **C3 (counterexample)**: renaming note 1 (name `A`) to the title
`was [[A]] now B` succeeds, and afterwards the edited note's own title
still contains the old marker `[[A]]` — refuting the claim's
parenthetical "no note's title still contains the old marker text"
(propagation pre-marks the edited note processed and never rewrites it). -/
theorem claim3_counterexample :
    (edit ((touch emptyWiki ("A".toList)).2) 1 ("was [[A]] now B".toList)).1 = WikiResult.ok ∧
    getNote c3w2 1 = some
      { id := 1, title := "was [[A]] now B".toList, uname := "was A now B".toList } ∧
    hasSub (mkMarker ("A".toList)) ("was [[A]] now B".toList) = true := by decide

/-- **C8 (counterexample)**: after
`touch "X B"; touch "X [[A]]"; edit 3 "B"; edit 2 "Z"`, note 1 is a live
note with canonical name `X B` but the index has lost that entry, so
renaming note 3 to `X B` succeeds instead of failing with
`DuplicateName` — refuting "fails with DuplicateName exactly when the
new canonical name equals the name of a different live note". -/
theorem claim8_counterexample :
    getNote c8w4 1 = some { id := 1, title := "X B".toList, uname := "X B".toList } ∧
    (1 : Nat) ≠ 3 ∧
    (edit c8w4 3 ("X B".toList)).1 = WikiResult.ok := by decide

/-- **C10 (counterexample)**: the note created by `touch "[[A B]]"` has
canonical name `A B` and its title contains its own marker `[[A B]]`,
yet its backlinks are empty: the backlink scan searches for the
`re.escape`d pattern `[[A\ B]]` by literal substring containment and
misses the reference. -/
theorem claim10_counterexample :
    getNote c10w 1 = some { id := 1, title := "[[A B]]".toList, uname := "A B".toList } ∧
    hasSub (mkMarker ("A B".toList)) ("[[A B]]".toList) = true ∧
    backlinkResult c10w 1 = some [] := by decide

theorem mem_insNat (x y : Nat) (l : List Nat) : y ∈ insNat x l ↔ y = x ∨ y ∈ l := by
  induction l with
  | nil => simp [insNat]
  | cons a as ih =>
    by_cases h : x ≤ a
    · simp [insNat, h]
    · simp [insNat, h, ih]
      tauto

theorem mem_sortNat (x : Nat) (l : List Nat) : x ∈ sortNat l ↔ x ∈ l := by
  induction l with
  | nil => simp [sortNat]
  | cons a as ih => simp [sortNat, mem_insNat, ih]

theorem editApply_fst (w : Wiki) (i : Nat) (nt : Note) (t u : List Char) :
    (editApply w i nt t u).1 = WikiResult.ok := by
  rw [editApply]
  split <;> rfl

/-- **C7**: for every graph state and every title containing a marker
whose content itself contains marker delimiters, create fails with
`InvalidTitle` and the state (notes, name index, next-id counter) is
exactly unchanged. -/
theorem claim7_nested (w : Wiki) (t content : List Char)
    (hmem : content ∈ findMarkers t)
    (hnest : hasSub dOpen content = true ∨ hasSub dClose content = true) :
    touch w t = (WikiResult.invalidTitle, w) := by
  have hval : isTitleValid t = false := by
    rw [isTitleValid, Bool.not_eq_false']
    rw [List.any_eq_true]
    refine ⟨content, hmem, ?_⟩
    rcases hnest with h | h <;> simp [h]
  rw [touch, if_pos hval]

/-- **C7 (witness)**: the nested title `[[a[[b]]` is rejected on the
fresh wiki. -/
theorem claim7_witness :
    touch emptyWiki ("[[a[[b]]".toList) = (WikiResult.invalidTitle, emptyWiki) :=
  claim7_nested emptyWiki ("[[a[[b]]".toList) ("a[[b".toList) (by decide) (by decide)

/-- **C9**: deleting a live note removes exactly that note from the note
table and exactly its name's entry from the index, leaves every other
note (id, title, name) and the id counter unchanged, makes the deleted
name unresolved in every subsequent link query that mentions it, and the
deleted id appears in no backlink scan. -/
theorem claim9_delete (w : Wiki) (i : Nat) (nt : Note)
    (hget : getNote w i = some nt)
    (hkeys : (w.uname_to_id.map Prod.fst).Nodup) :
    (rm w i).1 = WikiResult.ok ∧
    (rm w i).2.notes = w.notes.filter (fun x => !(x.id == i)) ∧
    (∀ nt2 ∈ w.notes, nt2.id ≠ i → nt2 ∈ (rm w i).2.notes) ∧
    (rm w i).2.uname_to_id = umErase w.uname_to_id nt.uname ∧
    (rm w i).2.next_id = w.next_id ∧
    umFind (rm w i).2.uname_to_id nt.uname = none ∧
    (∀ j p, p ∈ linkEntries (rm w i).2 j → p.1 = nt.uname → p.2 = none) ∧
    (∀ target, ¬ i ∈ calcBacklinks (rm w i).2 target) := by
  have hrm : rm w i =
      (WikiResult.ok,
       { notes := w.notes.filter (fun x => !(x.id == i)),
         uname_to_id := umErase w.uname_to_id nt.uname,
         next_id := w.next_id }) := by
    rw [rm, hget]
  rw [hrm]
  have hfindnone : umFind (umErase w.uname_to_id nt.uname) nt.uname = none :=
    umFind_erase_self w.uname_to_id nt.uname hkeys
  refine ⟨rfl, rfl, ?_, rfl, rfl, hfindnone, ?_, ?_⟩
  · intro nt2 h2 hne
    apply List.mem_filter.mpr
    exact ⟨h2, by simp [hne]⟩
  · intro j p hp hfst
    rw [linkEntries] at hp
    obtain ⟨u, hu, rfl⟩ := List.mem_map.mp hp
    simp only at hfst
    rw [hfst] at hu ⊢
    exact hfindnone
  · intro target hmem
    rw [calcBacklinks] at hmem
    obtain ⟨note, hnote, hid⟩ := List.mem_map.mp hmem
    have h1 : note ∈ List.filter (fun x => !(x.id == i)) w.notes :=
      (List.mem_filter.mp hnote).1
    have h2 := (List.mem_filter.mp h1).2
    rw [hid] at h2
    simp at h2

/-- **C9 (witness)**: deleting note 1 (`Alpha`) after
`touch "Alpha"; touch "See [[Alpha]]"` behaves as stated. -/
theorem claim9_witness :
    (rm ((touch ((touch emptyWiki ("Alpha".toList)).2) ("See [[Alpha]]".toList)).2) 1).1 =
      WikiResult.ok ∧
    umFind ((rm ((touch ((touch emptyWiki ("Alpha".toList)).2)
      ("See [[Alpha]]".toList)).2) 1).2).uname_to_id ("Alpha".toList) = none := by
  have h := claim9_delete
    ((touch ((touch emptyWiki ("Alpha".toList)).2) ("See [[Alpha]]".toList)).2) 1
    { id := 1, title := "Alpha".toList, uname := "Alpha".toList }
    (by decide) (by decide)
  exact ⟨h.1, h.2.2.2.2.2.1⟩

/-- **C10 (amended)**: a live note whose title contains the marker of
its own canonical name appears in its own backlink result whenever its
name is unchanged by `re.escape` (no space, dot, brackets, etc.); with
escape-affected names the literal containment test misses the marker. -/
theorem claim10_amended (w : Wiki) (i : Nat) (nt : Note)
    (hget : getNote w i = some nt)
    (hesc : reEscape nt.uname = nt.uname)
    (hself : hasSub (mkMarker nt.uname) nt.title = true) :
    backlinkResult w i = some (sortNat (calcBacklinks w nt.uname)) ∧
    i ∈ sortNat (calcBacklinks w nt.uname) := by
  constructor
  · rw [backlinkResult, hget]
  · have hidmem : i ∈ calcBacklinks w nt.uname := by
      rw [calcBacklinks]
      obtain ⟨hm, hid⟩ := getNote_mem hget
      apply List.mem_map.mpr
      refine ⟨nt, ?_, hid⟩
      apply List.mem_filter.mpr
      refine ⟨hm, ?_⟩
      rw [hesc]
      exact hself
    exact (mem_sortNat i _).mpr hidmem

/-- **C10 (witness)**: the self-referencing note `[[X]]` (name `X`, no
special characters) lists itself among its backlinks. -/
theorem claim10_witness :
    backlinkResult c10p 1 = some (sortNat (calcBacklinks c10p ("X".toList))) ∧
    1 ∈ sortNat (calcBacklinks c10p ("X".toList)) :=
  claim10_amended c10p 1 { id := 1, title := "[[X]]".toList, uname := "X".toList }
    (by decide) (by decide) (by decide)

/-- **C8 (amended)**: rename fails with `InvalidTitle` exactly on nested
markers, with `NoteNotFound` exactly on a dead id (after validity), with
`EmptyName` exactly on an empty canonical name, and with `DuplicateName`
exactly when the NAME INDEX maps the new canonical name to a different
id — renaming a note to its own indexed name is not an error — and on
any failure the state is exactly unchanged.  (The index, not the set of
live notes, is consulted: after an index corruption a colliding live
name does not block the rename.) -/
theorem claim8_amended (w : Wiki) (i : Nat) (t : List Char) :
    ((edit w i t).1 = WikiResult.invalidTitle ↔ isTitleValid t = false) ∧
    ((edit w i t).1 = WikiResult.noteNotFound ↔
      isTitleValid t = true ∧ getNote w i = none) ∧
    ((edit w i t).1 = WikiResult.emptyName ↔
      isTitleValid t = true ∧ (∃ nt, getNote w i = some nt) ∧ parseUname t = []) ∧
    ((edit w i t).1 = WikiResult.duplicateName ↔
      isTitleValid t = true ∧ (∃ nt, getNote w i = some nt) ∧ parseUname t ≠ [] ∧
      (∃ j, umFind w.uname_to_id (parseUname t) = some j ∧ j ≠ i)) ∧
    ((edit w i t).1 ≠ WikiResult.ok → (edit w i t).2 = w) := by
  by_cases hv : isTitleValid t = false
  · have hedit : edit w i t = (WikiResult.invalidTitle, w) := by rw [edit, if_pos hv]
    rw [hedit]
    refine ⟨by simp [hv], by simp [hv], by simp [hv], by simp [hv], fun _ => rfl⟩
  · have hv' : isTitleValid t = true := by
      cases h : isTitleValid t with
      | false => exact absurd h hv
      | true => rfl
    cases hg : getNote w i with
    | none =>
      have hedit : edit w i t = (WikiResult.noteNotFound, w) := by
        rw [edit, if_neg hv, hg]
      rw [hedit]
      refine ⟨by simp [hv'], by simp [hv', hg], by simp [hg], by simp [hg], fun _ => rfl⟩
    | some nt =>
      by_cases he : (parseUname t).isEmpty = true
      · have hemp : parseUname t = [] := by simpa using he
        have hedit : edit w i t = (WikiResult.emptyName, w) := by
          rw [edit, if_neg hv, hg]
          dsimp only
          rw [if_pos he]
        rw [hedit]
        refine ⟨by simp [hv'], by simp [hg], by simp [hv', hg, hemp], ?_, fun _ => rfl⟩
        simp [hemp]
      · have hne : parseUname t ≠ [] := by simpa using he
        cases hf : umFind w.uname_to_id (parseUname t) with
        | none =>
          have hedit : edit w i t = editApply w i nt t (parseUname t) := by
            rw [edit, if_neg hv, hg]
            dsimp only
            rw [if_neg he, hf]
          have hok : (edit w i t).1 = WikiResult.ok := by
            rw [hedit]; exact editApply_fst w i nt t (parseUname t)
          rw [hok]
          refine ⟨by simp [hv'], by simp [hg], by simp [hne], by simp [hf], by simp⟩
        | some j =>
          by_cases hj : (j != i) = true
          · have hji : j ≠ i := by simpa using hj
            have hedit : edit w i t = (WikiResult.duplicateName, w) := by
              rw [edit, if_neg hv, hg]
              dsimp only
              rw [if_neg he, hf]
              dsimp only
              rw [if_pos hj]
            rw [hedit]
            refine ⟨by simp [hv'], by simp [hv', hg], by simp [hne], ?_, fun _ => rfl⟩
            simp [hv', hg, hne, hf]
            exact hji
          · have hji : j = i := by simpa using hj
            have hedit : edit w i t = editApply w i nt t (parseUname t) := by
              rw [edit, if_neg hv, hg]
              dsimp only
              rw [if_neg he, hf]
              dsimp only
              rw [if_neg hj]
            have hok : (edit w i t).1 = WikiResult.ok := by
              rw [hedit]; exact editApply_fst w i nt t (parseUname t)
            rw [hok]
            refine ⟨by simp [hv'], by simp [hg], by simp [hne], ?_, by simp⟩
            constructor
            · intro hcon; exact absurd hcon (by decide)
            · rintro ⟨-, -, -, j', hj', hji'⟩
              obtain rfl : j = j' := Option.some.inj hj'
              exact absurd hji hji'

/-- **C8 (witness)**: renaming a dead id on the fresh wiki fails and
leaves the state unchanged. -/
theorem claim8_witness : (edit emptyWiki 1 ("A".toList)).2 = emptyWiki :=
  (claim8_amended emptyWiki 1 ("A".toList)).2.2.2.2 (by decide)


theorem insertNote_notes (w : Wiki) (t u : List Char) :
    (insertNote w t u).notes = w.notes ++ [{ id := w.next_id, title := t, uname := u }] := rfl

theorem insertNote_map (w : Wiki) (t u : List Char) :
    (insertNote w t u).uname_to_id = umInsert w.uname_to_id u w.next_id := rfl

theorem insertNote_length (w : Wiki) (t u : List Char) :
    (insertNote w t u).notes.length = w.notes.length + 1 := by
  rw [insertNote_notes]
  simp

theorem drop_append_cons {α : Type} (l1 l2 : List α) (a : α) :
    ((l1 ++ [a]) ++ l2).drop l1.length = a :: l2 := by
  rw [List.append_assoc, List.drop_left]
  rfl

theorem take_append_cons {α : Type} (l1 l2 : List α) (a : α) :
    ((l1 ++ [a]) ++ l2).take (l1.length + 1) = l1 ++ [a] := by
  have h : l1.length + 1 = (l1 ++ [a]).length := by simp
  rw [h, List.take_left]

theorem dedupFirst_nodup (l : List (List Char)) : (dedupFirst l).Nodup := by
  induction l with
  | nil => simp [dedupFirst]
  | cons x xs ih =>
    rw [dedupFirst, List.nodup_cons]
    constructor
    · intro hmem
      have h := (List.mem_filter.mp hmem).2
      simp at h
    · exact List.Nodup.filter _ ih

theorem addP_prefix (us : List (List Char)) :
    ∀ w, ∃ l, (addPlaceholders w us).notes = w.notes ++ l := by
  induction us with
  | nil => intro w; exact ⟨[], by simp [addPlaceholders]⟩
  | cons u rest ih =>
    intro w
    rw [addPlaceholders]
    by_cases h : (umFind w.uname_to_id u).isSome = true
    · rw [if_pos h]; exact ih w
    · rw [if_neg h]
      obtain ⟨l, hl⟩ := ih (insertNote w u u)
      refine ⟨{ id := w.next_id, title := u, uname := u } :: l, ?_⟩
      rw [hl, insertNote_notes, List.append_assoc]
      rfl

theorem addP_titles (us : List (List Char)) :
    ∀ w, us.Nodup →
      ((addPlaceholders w us).notes.drop w.notes.length).map Note.title =
        us.filter (fun u => (umFind w.uname_to_id u).isNone) := by
  induction us with
  | nil => intro w _; simp [addPlaceholders, List.drop_length]
  | cons u rest ih =>
    intro w hnd
    rw [List.nodup_cons] at hnd
    rw [addPlaceholders, List.filter_cons]
    by_cases h : (umFind w.uname_to_id u).isSome = true
    · have hisn : (umFind w.uname_to_id u).isNone = false := by
        obtain ⟨v, hv⟩ := Option.isSome_iff_exists.mp h
        simp [hv]
      rw [if_pos h, hisn]
      simp only [Bool.false_eq_true, if_false]
      exact ih w hnd.2
    · have hisn : (umFind w.uname_to_id u).isNone = true := by
        cases hh : umFind w.uname_to_id u with
        | none => rfl
        | some v => rw [hh] at h; simp at h
      rw [if_neg h, hisn]
      simp only [if_true]
      obtain ⟨l, hl⟩ := addP_prefix rest (insertNote w u u)
      have ihr := ih (insertNote w u u) hnd.2
      rw [hl, insertNote_notes] at ihr ⊢
      rw [List.drop_left] at ihr
      rw [drop_append_cons, List.map_cons]
      rw [insertNote_map] at ihr
      have hfiltereq : rest.filter
            (fun v => (umFind (umInsert w.uname_to_id u w.next_id) v).isNone) =
          rest.filter (fun v => (umFind w.uname_to_id v).isNone) := by
        apply List.filter_congr
        intro v hv
        have hvu : v ≠ u := by rintro rfl; exact hnd.1 hv
        rw [umFind_insert_ne w.uname_to_id u v w.next_id hvu]
      rw [← hfiltereq, ← ihr]

theorem addP_uname (us : List (List Char)) :
    ∀ w nt, nt ∈ (addPlaceholders w us).notes.drop w.notes.length →
      nt.uname = nt.title := by
  induction us with
  | nil =>
    intro w nt hmem
    rw [addPlaceholders, List.drop_length] at hmem
    cases hmem
  | cons u rest ih =>
    intro w nt hmem
    rw [addPlaceholders] at hmem
    by_cases h : (umFind w.uname_to_id u).isSome = true
    · rw [if_pos h] at hmem
      exact ih w nt hmem
    · rw [if_neg h] at hmem
      obtain ⟨l, hl⟩ := addP_prefix rest (insertNote w u u)
      rw [hl, insertNote_notes, drop_append_cons] at hmem
      cases hmem with
      | head => rfl
      | tail _ htail =>
        apply ih (insertNote w u u) nt
        rw [hl, insertNote_notes, List.drop_left]
        exact htail

theorem touch_accepts (w : Wiki) (t : List Char)
    (hval : isTitleValid t = true) (hne : parseUname t ≠ [])
    (hdup : umFind w.uname_to_id (parseUname t) = none) :
    touch w t = (WikiResult.ok,
      addPlaceholders (insertNote w t (parseUname t))
        (calcLinks (insertNote w t (parseUname t)) w.next_id)) := by
  rw [touch, if_neg (by simp [hval])]
  dsimp only
  rw [if_neg (by simpa using hne), if_neg (by simp [hdup])]

theorem calcLinks_insertNote (w : Wiki) (t u : List Char)
    (hfresh : ∀ nt ∈ w.notes, nt.id ≠ w.next_id) :
    calcLinks (insertNote w t u) w.next_id = dedupFirst (findMarkers t) := by
  have h1 : w.notes.find? (fun nt => nt.id == w.next_id) = none :=
    List.find?_eq_none.mpr (fun nt hmem => by simp [hfresh nt hmem])
  have hg : getNote (insertNote w t u) w.next_id =
      some { id := w.next_id, title := t, uname := u } := by
    rw [getNote, insertNote_notes, List.find?_append, h1]
    simp [List.find?_cons]
  simp [calcLinks, hg]

/-- **C5**: for every valid accepted title, create appends the main note
and then exactly one placeholder per distinct marker content unresolved
after the main insertion (a repeated marker yields a single
placeholder), each placeholder carrying the marker content verbatim as
both title and canonical name. -/
theorem claim5_placeholders (w : Wiki) (t : List Char)
    (hval : isTitleValid t = true)
    (hne : parseUname t ≠ [])
    (hdup : umFind w.uname_to_id (parseUname t) = none)
    (hfresh : ∀ nt ∈ w.notes, nt.id ≠ w.next_id) :
    (touch w t).1 = WikiResult.ok ∧
    (touch w t).2.notes.take (w.notes.length + 1) =
      w.notes ++ [{ id := w.next_id, title := t, uname := parseUname t }] ∧
    ((touch w t).2.notes.drop (w.notes.length + 1)).map Note.title =
      (dedupFirst (findMarkers t)).filter
        (fun u => (umFind (umInsert w.uname_to_id (parseUname t) w.next_id) u).isNone) ∧
    (∀ nt ∈ (touch w t).2.notes.drop (w.notes.length + 1), nt.uname = nt.title) ∧
    (((touch w t).2.notes.drop (w.notes.length + 1)).map Note.title).Nodup := by
  have htouch := touch_accepts w t hval hne hdup
  rw [calcLinks_insertNote w t (parseUname t) hfresh] at htouch
  rw [htouch]
  obtain ⟨l, hl⟩ := addP_prefix (dedupFirst (findMarkers t)) (insertNote w t (parseUname t))
  have ht := addP_titles (dedupFirst (findMarkers t)) (insertNote w t (parseUname t))
    (dedupFirst_nodup _)
  rw [insertNote_length] at ht
  refine ⟨rfl, ?_, ?_, ?_, ?_⟩
  · show (addPlaceholders _ _).notes.take (w.notes.length + 1) = _
    rw [hl, insertNote_notes, take_append_cons]
  · rw [insertNote_map] at ht
    exact ht
  · intro nt hmem
    apply addP_uname (dedupFirst (findMarkers t)) (insertNote w t (parseUname t)) nt
    rw [insertNote_length]
    exact hmem
  · rw [ht]
    exact List.Nodup.filter _ (dedupFirst_nodup _)

/-- **C5 (witness)**: `touch "see [[X]] and [[X]] and [[Y]]"` on the
fresh wiki creates exactly the two placeholders `X` and `Y`. -/
theorem claim5_witness :
    (touch emptyWiki ("see [[X]] and [[X]] and [[Y]]".toList)).1 = WikiResult.ok ∧
    (touch emptyWiki ("see [[X]] and [[X]] and [[Y]]".toList)).2.notes.take 1 =
      [{ id := 1, title := "see [[X]] and [[X]] and [[Y]]".toList,
         uname := parseUname ("see [[X]] and [[X]] and [[Y]]".toList) }] ∧
    ((touch emptyWiki ("see [[X]] and [[X]] and [[Y]]".toList)).2.notes.drop 1).map
        Note.title =
      (dedupFirst (findMarkers ("see [[X]] and [[X]] and [[Y]]".toList))).filter
        (fun u => (umFind (umInsert emptyWiki.uname_to_id
          (parseUname ("see [[X]] and [[X]] and [[Y]]".toList)) 1) u).isNone) ∧
    (∀ nt ∈ (touch emptyWiki ("see [[X]] and [[X]] and [[Y]]".toList)).2.notes.drop 1,
      nt.uname = nt.title) ∧
    (((touch emptyWiki ("see [[X]] and [[X]] and [[Y]]".toList)).2.notes.drop 1).map
      Note.title).Nodup :=
  claim5_placeholders emptyWiki ("see [[X]] and [[X]] and [[Y]]".toList)
    (by decide) (by decide) (by decide) (by decide)

theorem pu_keep (c : Char) (rest : List Char)
    (h1 : startsWithL dOpen (c :: rest) = false)
    (h2 : startsWithL dClose (c :: rest) = false) :
    parseUname (c :: rest) = c :: parseUname rest := by
  apply parseUname.eq_4
  · intro r hc hr
    subst hc; subst hr
    simp [startsWithL, dOpen] at h1
  · intro r hc hr
    subst hc; subst hr
    simp [startsWithL, dClose] at h2

theorem startsWithL_dOpen_elim (c : Char) (rest : List Char)
    (h : startsWithL dOpen (c :: rest) = true) : c = '[' ∧ ∃ r2, rest = '[' :: r2 := by
  cases rest with
  | nil => simp [startsWithL, dOpen] at h
  | cons c2 r2 =>
    simp only [dOpen, startsWithL, Bool.and_eq_true, beq_iff_eq] at h
    obtain ⟨hc, hc2, -⟩ := h
    exact ⟨hc.symm, r2, by rw [← hc2]⟩

theorem startsWithL_dClose_elim (c : Char) (rest : List Char)
    (h : startsWithL dClose (c :: rest) = true) : c = ']' ∧ ∃ r2, rest = ']' :: r2 := by
  cases rest with
  | nil => simp [startsWithL, dClose] at h
  | cons c2 r2 =>
    simp only [dClose, startsWithL, Bool.and_eq_true, beq_iff_eq] at h
    obtain ⟨hc, hc2, -⟩ := h
    exact ⟨hc.symm, r2, by rw [← hc2]⟩

theorem delimStripped_aux : ∀ n t, t.length ≤ n → DelimStripped t (parseUname t) := by
  intro n
  induction n with
  | zero =>
    intro t h
    have ht : t = [] := List.length_eq_zero.mp (Nat.le_zero.mp h)
    subst ht
    exact DelimStripped.nil
  | succ n ih =>
    intro t h
    cases t with
    | nil => exact DelimStripped.nil
    | cons c rest =>
      by_cases hopen : startsWithL dOpen (c :: rest) = true
      · obtain ⟨hc, r2, hr⟩ := startsWithL_dOpen_elim c rest hopen
        subst hc; subst hr
        rw [parseUname.eq_2]
        have hlen : r2.length ≤ n := by
          simp only [List.length_cons] at h
          omega
        exact DelimStripped.strip2 dOpen r2 (parseUname r2) (Or.inl rfl) (ih r2 hlen)
      · by_cases hclose : startsWithL dClose (c :: rest) = true
        · obtain ⟨hc, r2, hr⟩ := startsWithL_dClose_elim c rest hclose
          subst hc; subst hr
          rw [parseUname.eq_3]
          have hlen : r2.length ≤ n := by
            simp only [List.length_cons] at h
            omega
          exact DelimStripped.strip2 dClose r2 (parseUname r2) (Or.inr rfl) (ih r2 hlen)
        · have h1 : startsWithL dOpen (c :: rest) = false := by
            cases hb : startsWithL dOpen (c :: rest) with
            | false => rfl
            | true => exact absurd hb hopen
          have h2 : startsWithL dClose (c :: rest) = false := by
            cases hb : startsWithL dClose (c :: rest) with
            | false => rfl
            | true => exact absurd hb hclose
          rw [pu_keep c rest h1 h2]
          have hlen : rest.length ≤ n := by
            simp only [List.length_cons] at h
            omega
          exact DelimStripped.keep c rest (parseUname rest) h1 h2 (ih rest hlen)

theorem delimStripped_unique : ∀ t r, DelimStripped t r → r = parseUname t := by
  intro t r h
  induction h with
  | nil => rfl
  | strip2 d t' r' hd _ ih =>
    rcases hd with rfl | rfl
    · rw [show dOpen ++ t' = '[' :: '[' :: t' from rfl, parseUname.eq_2]
      exact ih
    · rw [show dClose ++ t' = ']' :: ']' :: t' from rfl, parseUname.eq_3]
      exact ih
  | keep c t' r' h1 h2 _ ih =>
    rw [pu_keep c t' h1 h2, ih]

theorem insertNote_next_id (w : Wiki) (t u : List Char) :
    (insertNote w t u).next_id = w.next_id + 1 := rfl

theorem mem_dedupFirst (u : List Char) (l : List (List Char)) :
    u ∈ dedupFirst l → u ∈ l := by
  induction l with
  | nil => intro h; rw [dedupFirst] at h; cases h
  | cons x xs ih =>
    intro h
    rw [dedupFirst] at h
    rcases List.mem_cons.mp h with rfl | h2
    · exact List.mem_cons_self _ _
    · exact List.mem_cons_of_mem _ (ih (List.mem_filter.mp h2).1)

theorem hasSub_false_parts (pat : List Char) (c : Char) (rest : List Char)
    (h : hasSub pat (c :: rest) = false) :
    startsWithL pat (c :: rest) = false ∧ hasSub pat rest = false := by
  rw [hasSub_cons, Bool.or_eq_false_iff] at h
  exact h

theorem pu_no_delims : ∀ n u, u.length ≤ n → hasSub dOpen u = false →
    hasSub dClose u = false → parseUname u = u := by
  intro n
  induction n with
  | zero =>
    intro u h _ _
    have hu : u = [] := List.length_eq_zero.mp (Nat.le_zero.mp h)
    subst hu
    rfl
  | succ n ih =>
    intro u h ho hc
    cases u with
    | nil => rfl
    | cons c rest =>
      obtain ⟨ho1, ho2⟩ := hasSub_false_parts _ _ _ ho
      obtain ⟨hc1, hc2⟩ := hasSub_false_parts _ _ _ hc
      rw [pu_keep c rest ho1 hc1]
      have hlen : rest.length ≤ n := by
        simp only [List.length_cons] at h
        omega
      rw [ih rest hlen ho2 hc2]

theorem markers_no_delims (t u : List Char) (hval : isTitleValid t = true)
    (hm : u ∈ findMarkers t) :
    hasSub dOpen u = false ∧ hasSub dClose u = false := by
  have hany : (findMarkers t).any
      (fun content => hasSub dOpen content || hasSub dClose content) = false := by
    cases hb : (findMarkers t).any
        (fun content => hasSub dOpen content || hasSub dClose content) with
    | false => rfl
    | true => rw [isTitleValid, hb] at hval; simp at hval
  rw [List.any_eq_false] at hany
  have h2 := hany u hm
  simp only [Bool.or_eq_true, not_or, Bool.not_eq_true] at h2
  exact h2

theorem markers_parseUname_id (t u : List Char) (hval : isTitleValid t = true)
    (hm : u ∈ findMarkers t) : parseUname u = u := by
  obtain ⟨ho, hc⟩ := markers_no_delims t u hval hm
  exact pu_no_delims u.length u (le_refl _) ho hc

theorem rewriteNote_inv (w : Wiki) (i : Nat) (T old : List Char)
    (hw : ∀ nt ∈ w.notes, nt.uname = parseUname nt.title) :
    ∀ nt ∈ (rewriteNote w i T old).notes, nt.uname = parseUname nt.title := by
  intro nt hmem
  rw [rewriteNote] at hmem
  obtain ⟨nt0, h0, rfl⟩ := List.mem_map.mp hmem
  by_cases h : (nt0.id == i) = true
  · simp only [h, if_true]
  · simp only [h, Bool.false_eq_true, if_false]
    exact hw nt0 h0

theorem rewriteNote_fresh (w : Wiki) (i : Nat) (T old : List Char)
    (hf : ∀ nt ∈ w.notes, nt.id < w.next_id) :
    ∀ nt ∈ (rewriteNote w i T old).notes, nt.id < (rewriteNote w i T old).next_id := by
  intro nt hmem
  rw [rewriteNote] at hmem
  obtain ⟨nt0, h0, rfl⟩ := List.mem_map.mp hmem
  show _ < w.next_id
  by_cases h : (nt0.id == i) = true
  · simp only [h, if_true]
    exact hf nt0 h0
  · simp only [h, Bool.false_eq_true, if_false]
    exact hf nt0 h0

theorem propLoopF_preserves (P : Wiki → Prop)
    (hP : ∀ w i T old, P w → P (rewriteNote w i T old)) (o n : List Char) :
    ∀ f w q p res, propLoopF o n f w q p = some res → P w → P res := by
  intro f
  induction f with
  | zero =>
    intro w q p res h hw
    cases q with
    | nil => rw [propLoopF] at h; exact (Option.some.inj h) ▸ hw
    | cons i rest => rw [propLoopF] at h; cases h
  | succ f ih =>
    intro w q p res h hw
    cases q with
    | nil => rw [propLoopF] at h; exact (Option.some.inj h) ▸ hw
    | cons i rest =>
      rw [propLoopF] at h
      by_cases hip : i ∈ p
      · rw [if_pos hip] at h; exact ih _ _ _ _ h hw
      · rw [if_neg hip] at h
        cases hg : getNote w i with
        | none => rw [hg] at h; exact ih _ _ _ _ h hw
        | some note =>
          rw [hg] at h
          dsimp only at h
          by_cases hoc : hasSub o note.title = false
          · rw [if_pos hoc] at h; exact ih _ _ _ _ h hw
          · rw [if_neg hoc] at h
            by_cases hsame : (note.uname == parseUname (replaceAll o n note.title)) = true
            · rw [if_pos hsame] at h; exact ih _ _ _ _ h (hP _ _ _ _ hw)
            · rw [if_neg hsame] at h; exact ih _ _ _ _ h (hP _ _ _ _ hw)

theorem propagate_preserves (P : Wiki → Prop)
    (hP : ∀ w i T old, P w → P (rewriteNote w i T old))
    (w : Wiki) (eid : Nat) (o n : List Char) (hw : P w) : P (propagate w eid o n) :=
  propLoopF_preserves P hP o n (fuelBound w) w (w.notes.map Note.id) [eid]
    (propagate w eid o n) (propagate_eq w eid o n) hw

theorem addP_inv (us : List (List Char)) :
    ∀ w, (∀ u ∈ us, parseUname u = u) →
      (∀ nt ∈ w.notes, nt.uname = parseUname nt.title) →
      ∀ nt ∈ (addPlaceholders w us).notes, nt.uname = parseUname nt.title := by
  induction us with
  | nil =>
    intro w _ hw nt hmem
    rw [addPlaceholders] at hmem
    exact hw nt hmem
  | cons u rest ih =>
    intro w hus hw nt hmem
    rw [addPlaceholders] at hmem
    by_cases h : (umFind w.uname_to_id u).isSome = true
    · rw [if_pos h] at hmem
      exact ih w (fun v hv => hus v (List.mem_cons_of_mem _ hv)) hw nt hmem
    · rw [if_neg h] at hmem
      refine ih (insertNote w u u) (fun v hv => hus v (List.mem_cons_of_mem _ hv)) ?_ nt hmem
      intro nt2 hm2
      rw [insertNote_notes] at hm2
      rcases List.mem_append.mp hm2 with hin | hin
      · exact hw nt2 hin
      · have : nt2 = { id := w.next_id, title := u, uname := u } := by simpa using hin
        subst this
        exact (hus u (List.mem_cons_self _ _)).symm

theorem addP_fresh (us : List (List Char)) :
    ∀ w, (∀ nt ∈ w.notes, nt.id < w.next_id) →
      ∀ nt ∈ (addPlaceholders w us).notes, nt.id < (addPlaceholders w us).next_id := by
  induction us with
  | nil =>
    intro w hw nt hmem
    rw [addPlaceholders] at hmem ⊢
    exact hw nt hmem
  | cons u rest ih =>
    intro w hw nt hmem
    rw [addPlaceholders] at hmem ⊢
    by_cases h : (umFind w.uname_to_id u).isSome = true
    · rw [if_pos h] at hmem ⊢
      exact ih w hw nt hmem
    · rw [if_neg h] at hmem ⊢
      refine ih (insertNote w u u) ?_ nt hmem
      intro nt2 hm2
      rw [insertNote_notes] at hm2
      rw [insertNote_next_id]
      rcases List.mem_append.mp hm2 with hin | hin
      · have := hw nt2 hin
        omega
      · have : nt2 = { id := w.next_id, title := u, uname := u } := by simpa using hin
        subst this
        show w.next_id < w.next_id + 1
        omega

theorem touch_inv (w : Wiki) (t : List Char)
    (hw : ∀ nt ∈ w.notes, nt.uname = parseUname nt.title)
    (hf : ∀ nt ∈ w.notes, nt.id < w.next_id) :
    (∀ nt ∈ (touch w t).2.notes, nt.uname = parseUname nt.title) ∧
    (∀ nt ∈ (touch w t).2.notes, nt.id < (touch w t).2.next_id) := by
  by_cases hv : isTitleValid t = false
  · rw [touch, if_pos hv]; exact ⟨hw, hf⟩
  · have hv' : isTitleValid t = true := by
      cases hb : isTitleValid t with
      | false => exact absurd hb hv
      | true => rfl
    by_cases he : (parseUname t).isEmpty = true
    · rw [touch, if_neg hv]
      dsimp only
      rw [if_pos he]
      exact ⟨hw, hf⟩
    · by_cases hdup : (umFind w.uname_to_id (parseUname t)).isSome = true
      · rw [touch, if_neg hv]
        dsimp only
        rw [if_neg he, if_pos hdup]
        exact ⟨hw, hf⟩
      · have hdup' : umFind w.uname_to_id (parseUname t) = none := by
          cases hh : umFind w.uname_to_id (parseUname t) with
          | none => rfl
          | some v => rw [hh] at hdup; simp at hdup
        have hne : parseUname t ≠ [] := by simpa using he
        rw [touch_accepts w t hv' hne hdup']
        rw [calcLinks_insertNote w t (parseUname t)
          (fun nt hm => Nat.ne_of_lt (hf nt hm))]
        have hus : ∀ u ∈ dedupFirst (findMarkers t), parseUname u = u :=
          fun u hu => markers_parseUname_id t u hv' (mem_dedupFirst u _ hu)
        have hwin : ∀ nt ∈ (insertNote w t (parseUname t)).notes,
            nt.uname = parseUname nt.title := by
          intro nt2 hm2
          rw [insertNote_notes] at hm2
          rcases List.mem_append.mp hm2 with hin | hin
          · exact hw nt2 hin
          · have : nt2 = { id := w.next_id, title := t, uname := parseUname t } := by
              simpa using hin
            subst this
            rfl
        have hfin : ∀ nt ∈ (insertNote w t (parseUname t)).notes,
            nt.id < (insertNote w t (parseUname t)).next_id := by
          intro nt2 hm2
          rw [insertNote_notes] at hm2
          rw [insertNote_next_id]
          rcases List.mem_append.mp hm2 with hin | hin
          · have := hf nt2 hin
            omega
          · have : nt2 = { id := w.next_id, title := t, uname := parseUname t } := by
              simpa using hin
            subst this
            show w.next_id < w.next_id + 1
            omega
        exact ⟨addP_inv _ _ hus hwin, addP_fresh _ _ hfin⟩

theorem edit_inv (w : Wiki) (i : Nat) (t : List Char)
    (hw : ∀ nt ∈ w.notes, nt.uname = parseUname nt.title)
    (hf : ∀ nt ∈ w.notes, nt.id < w.next_id) :
    (∀ nt ∈ (edit w i t).2.notes, nt.uname = parseUname nt.title) ∧
    (∀ nt ∈ (edit w i t).2.notes, nt.id < (edit w i t).2.next_id) := by
  have happ : ∀ nt0 : Note,
      (∀ nt ∈ (editApply w i nt0 t (parseUname t)).2.notes,
        nt.uname = parseUname nt.title) ∧
      (∀ nt ∈ (editApply w i nt0 t (parseUname t)).2.notes,
        nt.id < (editApply w i nt0 t (parseUname t)).2.next_id) := by
    intro nt0
    rw [editApply]
    by_cases hsame : (nt0.uname == parseUname t) = true
    · rw [if_pos hsame]
      exact ⟨rewriteNote_inv w i t nt0.uname hw, rewriteNote_fresh w i t nt0.uname hf⟩
    · rw [if_neg hsame]
      constructor
      · exact propagate_preserves (fun w2 => ∀ nt ∈ w2.notes, nt.uname = parseUname nt.title)
          (fun w2 i2 T old hP => rewriteNote_inv w2 i2 T old hP) _ _ _ _
          (rewriteNote_inv w i t nt0.uname hw)
      · exact propagate_preserves
          (fun w2 => ∀ nt ∈ w2.notes, nt.id < w2.next_id)
          (fun w2 i2 T old hP => rewriteNote_fresh w2 i2 T old hP) _ _ _ _
          (rewriteNote_fresh w i t nt0.uname hf)
  by_cases hv : isTitleValid t = false
  · rw [edit, if_pos hv]; exact ⟨hw, hf⟩
  · cases hg : getNote w i with
    | none => rw [edit, if_neg hv, hg]; exact ⟨hw, hf⟩
    | some nt0 =>
      by_cases he : (parseUname t).isEmpty = true
      · rw [edit, if_neg hv, hg]
        dsimp only
        rw [if_pos he]
        exact ⟨hw, hf⟩
      · cases hfind : umFind w.uname_to_id (parseUname t) with
        | none =>
          have hedit : edit w i t = editApply w i nt0 t (parseUname t) := by
            rw [edit, if_neg hv, hg]
            dsimp only
            rw [if_neg he, hfind]
          rw [hedit]
          exact happ nt0
        | some j =>
          by_cases hj : (j != i) = true
          · have hedit : edit w i t = (WikiResult.duplicateName, w) := by
              rw [edit, if_neg hv, hg]
              dsimp only
              rw [if_neg he, hfind]
              dsimp only
              rw [if_pos hj]
            rw [hedit]
            exact ⟨hw, hf⟩
          · have hedit : edit w i t = editApply w i nt0 t (parseUname t) := by
              rw [edit, if_neg hv, hg]
              dsimp only
              rw [if_neg he, hfind]
              dsimp only
              rw [if_neg hj]
            rw [hedit]
            exact happ nt0

theorem rm_inv (w : Wiki) (i : Nat)
    (hw : ∀ nt ∈ w.notes, nt.uname = parseUname nt.title)
    (hf : ∀ nt ∈ w.notes, nt.id < w.next_id) :
    (∀ nt ∈ (rm w i).2.notes, nt.uname = parseUname nt.title) ∧
    (∀ nt ∈ (rm w i).2.notes, nt.id < (rm w i).2.next_id) := by
  cases hg : getNote w i with
  | none => rw [rm, hg]; exact ⟨hw, hf⟩
  | some nt0 =>
    rw [rm, hg]
    constructor
    · intro nt hmem
      exact hw nt (List.mem_filter.mp hmem).1
    · intro nt hmem
      exact hf nt (List.mem_filter.mp hmem).1

theorem reachable_inv (w : Wiki) (hr : Reachable w) :
    (∀ nt ∈ w.notes, nt.uname = parseUname nt.title) ∧
    (∀ nt ∈ w.notes, nt.id < w.next_id) := by
  induction hr with
  | empty => exact ⟨fun nt h => (nomatch h), fun nt h => (nomatch h)⟩
  | touch w2 t _ ih => exact touch_inv w2 t ih.1 ih.2
  | edit w2 i t _ ih => exact edit_inv w2 i t ih.1 ih.2
  | rm w2 i _ ih => exact rm_inv w2 i ih.1 ih.2

/-- **C6**: the canonical name is the title with all marker delimiters
removed and every other character preserved in order — `parseUname`
realizes the spec's delimiter-stripping relation `DelimStripped`, and
that relation determines it uniquely — and in every reachable state
every live note's stored name equals `parseUname` of its stored title
(no other derivation path). -/
theorem claim6_canonical :
    (∀ t, DelimStripped t (parseUname t)) ∧
    (∀ t r, DelimStripped t r → r = parseUname t) ∧
    (∀ w, Reachable w → ∀ nt ∈ w.notes, nt.uname = parseUname nt.title) :=
  ⟨fun t => delimStripped_aux t.length t (le_refl _),
   delimStripped_unique,
   fun w hr => (reachable_inv w hr).1⟩

/-- **C6 (witness)**: concrete checks of all three parts on the state
reached by `touch "a[[b]]c"`. -/
theorem claim6_witness :
    DelimStripped ("a[[b]]c".toList) (parseUname ("a[[b]]c".toList)) ∧
    ("abc".toList = parseUname ("a[[b]]c".toList)) ∧
    ({ id := 1, title := "a[[b]]c".toList, uname := "abc".toList } : Note).uname =
      parseUname ({ id := 1, title := "a[[b]]c".toList, uname := "abc".toList } : Note).title :=
  ⟨claim6_canonical.1 ("a[[b]]c".toList),
   claim6_canonical.2.1 ("a[[b]]c".toList) ("abc".toList)
     (by
       have h := claim6_canonical.1 ("a[[b]]c".toList)
       have he : parseUname ("a[[b]]c".toList) = "abc".toList := by decide
       rw [← he]
       exact h),
   claim6_canonical.2.2 (touch emptyWiki ("a[[b]]c".toList)).2
     (Reachable.touch emptyWiki ("a[[b]]c".toList) Reachable.empty)
     { id := 1, title := "a[[b]]c".toList, uname := "abc".toList }
     (by decide)⟩

theorem nodup_id_unique (l : List Note) (hnd : (l.map Note.id).Nodup)
    (a b : Note) (ha : a ∈ l) (hb : b ∈ l) (hid : a.id = b.id) : a = b := by
  induction l with
  | nil => cases ha
  | cons x xs ih =>
    rw [List.map_cons, List.nodup_cons] at hnd
    rcases List.mem_cons.mp ha with rfl | ha2
    · rcases List.mem_cons.mp hb with rfl | hb2
      · rfl
      · exact absurd (List.mem_map.mpr ⟨b, hb2, hid.symm⟩) hnd.1
    · rcases List.mem_cons.mp hb with rfl | hb2
      · exact absurd (List.mem_map.mpr ⟨a, ha2, hid⟩) hnd.1
      · exact ih hnd.2 ha2 hb2

theorem map_update_identity (l : List Note) (i : Nat) (nt : Note)
    (hnd : (l.map Note.id).Nodup) (hmem : nt ∈ l) (hid : nt.id = i) :
    l.map (fun nt2 =>
      if nt2.id == i then { nt2 with title := nt.title, uname := nt.uname } else nt2) = l := by
  have hpt : ∀ a ∈ l, (fun nt2 =>
      if nt2.id == i then { nt2 with title := nt.title, uname := nt.uname } else nt2) a
        = id a := by
    intro a ha
    by_cases h : (a.id == i) = true
    · have haeq : a = nt := nodup_id_unique l hnd a nt ha hmem (by rw [eq_of_beq h, hid])
      subst haeq
      simp [h]
    · simp [h]
  rw [List.map_congr_left hpt, List.map_id]

theorem getNote_rewriteNote_self (w : Wiki) (i : Nat) (T old : List Char) (nt : Note)
    (hget : getNote w i = some nt) :
    getNote (rewriteNote w i T old) i =
      some { nt with title := T, uname := parseUname T } := by
  show (w.notes.map (fun nt2 =>
      if nt2.id == i then { nt2 with title := T, uname := parseUname T } else nt2)).find?
      (fun nt2 => nt2.id == i) = _
  rw [List.find?_map]
  have hcomp : ((fun nt2 : Note => nt2.id == i) ∘ (fun nt2 =>
      if nt2.id == i then { nt2 with title := T, uname := parseUname T } else nt2))
      = (fun nt2 : Note => nt2.id == i) := by
    funext nt2
    by_cases h : (nt2.id == i) = true <;> simp [Function.comp, h]
  rw [hcomp]
  rw [getNote] at hget
  rw [hget]
  have hid : (nt.id == i) = true :=
    List.find?_some (p := fun nt2 : Note => nt2.id == i) hget
  show some (if (nt.id == i) = true then { nt with title := T, uname := parseUname T } else nt)
    = some { nt with title := T, uname := parseUname T }
  rw [if_pos hid]

theorem getNote_rewriteNote_ne (w : Wiki) (i j : Nat) (T old : List Char) (hne : j ≠ i) :
    getNote (rewriteNote w i T old) j = getNote w j := by
  show (w.notes.map (fun nt2 =>
      if nt2.id == i then { nt2 with title := T, uname := parseUname T } else nt2)).find?
      (fun nt2 => nt2.id == j) = _
  rw [List.find?_map]
  have hcomp : ((fun nt2 : Note => nt2.id == j) ∘ (fun nt2 =>
      if nt2.id == i then { nt2 with title := T, uname := parseUname T } else nt2))
      = (fun nt2 : Note => nt2.id == j) := by
    funext nt2
    by_cases h : (nt2.id == i) = true <;> simp [Function.comp, h]
  rw [hcomp, getNote]
  cases h : w.notes.find? (fun nt2 => nt2.id == j) with
  | none => simp
  | some nt2 =>
    have hid : nt2.id = j := by
      simpa using List.find?_some (p := fun nt3 : Note => nt3.id == j) h
    have hfalse : (nt2.id == i) = false := by
      rw [hid]
      exact beq_eq_false_iff_ne.mpr hne
    show some (if (nt2.id == i) = true then { nt2 with title := T, uname := parseUname T }
      else nt2) = some nt2
    rw [hfalse]
    simp

theorem propLoopF_getNote_processed (o n : List Char) :
    ∀ f w q p res j, j ∈ p → propLoopF o n f w q p = some res →
      getNote res j = getNote w j := by
  intro f
  induction f with
  | zero =>
    intro w q p res j hj h
    cases q with
    | nil => rw [propLoopF] at h; rw [Option.some.inj h]
    | cons i rest => rw [propLoopF] at h; cases h
  | succ f ih =>
    intro w q p res j hj h
    cases q with
    | nil => rw [propLoopF] at h; rw [Option.some.inj h]
    | cons i rest =>
      rw [propLoopF] at h
      by_cases hip : i ∈ p
      · rw [if_pos hip] at h; exact ih _ _ _ _ j hj h
      · rw [if_neg hip] at h
        have hji : j ≠ i := by rintro rfl; exact hip hj
        cases hg : getNote w i with
        | none => rw [hg] at h; exact ih _ _ _ _ j (List.mem_cons_of_mem _ hj) h
        | some note =>
          rw [hg] at h
          dsimp only at h
          by_cases hoc : hasSub o note.title = false
          · rw [if_pos hoc] at h; exact ih _ _ _ _ j (List.mem_cons_of_mem _ hj) h
          · rw [if_neg hoc] at h
            by_cases hsame : (note.uname == parseUname (replaceAll o n note.title)) = true
            · rw [if_pos hsame] at h
              rw [ih _ _ _ _ j (List.mem_cons_of_mem _ hj) h]
              exact getNote_rewriteNote_ne w i j _ note.uname hji
            · rw [if_neg hsame] at h
              rw [ih _ _ _ _ j (List.mem_cons_of_mem _ hj) h]
              exact getNote_rewriteNote_ne w i j _ note.uname hji

theorem edit_same_noop (w : Wiki) (i : Nat) (nt : Note) (t : List Char)
    (hget : getNote w i = some nt) (htitle : nt.title = t)
    (huname : nt.uname = parseUname t)
    (hval : isTitleValid t = true) (hne : parseUname t ≠ [])
    (hfind : umFind w.uname_to_id (parseUname t) = some i)
    (hnd : (w.notes.map Note.id).Nodup) :
    (edit w i t).1 = WikiResult.ok ∧ stateEquiv (edit w i t).2 w := by
  have hedit : edit w i t = editApply w i nt t (parseUname t) := by
    rw [edit, if_neg (by simp [hval]), hget]
    dsimp only
    rw [if_neg (by simpa using hne), hfind]
    dsimp only
    rw [if_neg (by simp)]
  have happly : editApply w i nt t (parseUname t) =
      (WikiResult.ok, rewriteNote w i t nt.uname) := by
    rw [editApply, if_pos (by rw [huname]; exact beq_self_eq_true _)]
  rw [hedit, happly]
  refine ⟨rfl, ?_, rfl, ?_⟩
  · show (rewriteNote w i t nt.uname).notes = w.notes
    show w.notes.map (fun nt2 =>
      if nt2.id == i then { nt2 with title := t, uname := parseUname t } else nt2) = w.notes
    rw [← huname, ← htitle]
    exact map_update_identity w.notes i nt hnd (getNote_mem hget).1 (getNote_mem hget).2
  · intro k
    show umFind (umInsert (umErase w.uname_to_id nt.uname) (parseUname t) i) k
      = umFind w.uname_to_id k
    by_cases hk : k = parseUname t
    · subst hk
      rw [umFind_insert_self, hfind]
    · rw [umFind_insert_ne _ _ _ _ hk]
      apply umFind_erase_ne
      rw [huname]
      exact hk

theorem edit_ok_cases (w : Wiki) (i : Nat) (t : List Char)
    (hok : (edit w i t).1 = WikiResult.ok) :
    ∃ nt, getNote w i = some nt ∧ isTitleValid t = true ∧ parseUname t ≠ [] ∧
      edit w i t = editApply w i nt t (parseUname t) := by
  by_cases hv : isTitleValid t = false
  · rw [edit, if_pos hv] at hok; simp at hok
  · have hv' : isTitleValid t = true := by
      cases hb : isTitleValid t with
      | false => exact absurd hb hv
      | true => rfl
    cases hg : getNote w i with
    | none => rw [edit, if_neg hv, hg] at hok; simp at hok
    | some nt =>
      by_cases he : (parseUname t).isEmpty = true
      · rw [edit, if_neg hv, hg] at hok
        dsimp only at hok
        rw [if_pos he] at hok
        simp at hok
      · have hne : parseUname t ≠ [] := by simpa using he
        refine ⟨nt, rfl, hv', hne, ?_⟩
        cases hfind : umFind w.uname_to_id (parseUname t) with
        | none =>
          rw [edit, if_neg hv, hg]
          dsimp only
          rw [if_neg he, hfind]
        | some j =>
          by_cases hj : (j != i) = true
          · rw [edit, if_neg hv, hg] at hok
            dsimp only at hok
            rw [if_neg he, hfind] at hok
            dsimp only at hok
            rw [if_pos hj] at hok
            simp at hok
          · rw [edit, if_neg hv, hg]
            dsimp only
            rw [if_neg he, hfind]
            dsimp only
            rw [if_neg hj]

theorem editApply_snd (w : Wiki) (i : Nat) (nt : Note) (t : List Char) :
    (editApply w i nt t (parseUname t)).2 = rewriteNote w i t nt.uname ∨
    (editApply w i nt t (parseUname t)).2 =
      propagate (rewriteNote w i t nt.uname) i (mkMarker nt.uname)
        (mkMarker (parseUname t)) := by
  rw [editApply]
  by_cases h : (nt.uname == parseUname t) = true
  · rw [if_pos h]; exact Or.inl rfl
  · rw [if_neg h]; exact Or.inr rfl

theorem edit_ok_note (w : Wiki) (i : Nat) (t : List Char)
    (hok : (edit w i t).1 = WikiResult.ok) :
    getNote (edit w i t).2 i = some { id := i, title := t, uname := parseUname t } := by
  obtain ⟨nt, hget, hval, hne, hedit⟩ := edit_ok_cases w i t hok
  have hid : nt.id = i := (getNote_mem hget).2
  have hkey : ({ nt with title := t, uname := parseUname t } : Note)
      = { id := i, title := t, uname := parseUname t } := by rw [← hid]
  rw [hedit]
  rcases editApply_snd w i nt t with h2 | h2 <;> rw [h2]
  · rw [getNote_rewriteNote_self w i t nt.uname nt hget, hkey]
  · have hp := propLoopF_getNote_processed (mkMarker nt.uname) (mkMarker (parseUname t))
      (fuelBound (rewriteNote w i t nt.uname)) (rewriteNote w i t nt.uname)
      ((rewriteNote w i t nt.uname).notes.map Note.id) [i]
      (propagate (rewriteNote w i t nt.uname) i (mkMarker nt.uname)
        (mkMarker (parseUname t)))
      i (List.mem_singleton.mpr rfl) (propagate_eq _ _ _ _)
    rw [hp, getNote_rewriteNote_self w i t nt.uname nt hget, hkey]

theorem edit_ids (w : Wiki) (i : Nat) (t : List Char)
    (hok : (edit w i t).1 = WikiResult.ok) :
    (edit w i t).2.notes.map Note.id = w.notes.map Note.id := by
  obtain ⟨nt, hget, hval, hne, hedit⟩ := edit_ok_cases w i t hok
  rw [hedit]
  rcases editApply_snd w i nt t with h2 | h2 <;> rw [h2]
  · exact rewriteNote_ids w i t nt.uname
  · exact propagate_preserves
      (fun w2 => w2.notes.map Note.id = w.notes.map Note.id)
      (fun w2 i2 T old hP => by
        show (rewriteNote w2 i2 T old).notes.map Note.id = w.notes.map Note.id
        rw [rewriteNote_ids]
        exact hP)
      (rewriteNote w i t nt.uname) i (mkMarker nt.uname) (mkMarker (parseUname t))
      (rewriteNote_ids w i t nt.uname)

theorem rewriteNote_getElem (w : Wiki) (i : Nat) (T old : List Char) (k : Nat)
    (hk : k < w.notes.length) (hk1 : k < (rewriteNote w i T old).notes.length) :
    (rewriteNote w i T old).notes[k] =
      (if ((w.notes[k]).id == i) = true then
        Note.mk (w.notes[k]).id T (parseUname T) else w.notes[k]) := by
  show (w.notes.map (fun nt2 =>
    if nt2.id == i then { nt2 with title := T, uname := parseUname T } else nt2))[k] = _
  rw [List.getElem_map]

theorem propLoopF_titles (o n : List Char) :
    ∀ f w q p res, propLoopF o n f w q p = some res →
      ((w.notes.map Note.id).Nodup) →
      (∀ nt ∈ w.notes, nt.uname = parseUname nt.title) →
      (∀ nt ∈ w.notes, nt.id ∈ p ∨ nt.id ∈ q) →
      res.notes.length = w.notes.length ∧
      ∀ k (hk : k < w.notes.length) (hk2 : k < res.notes.length),
        (res.notes[k]).id = (w.notes[k]).id ∧
        (res.notes[k]).title =
          (if (w.notes[k]).id ∈ p then (w.notes[k]).title
           else replaceAll o n (w.notes[k]).title) ∧
        (res.notes[k]).uname = parseUname (res.notes[k]).title := by
  intro f
  induction f with
  | zero =>
    intro w q p res h hnd hinv hcov
    cases q with
    | cons i rest => rw [propLoopF] at h; cases h
    | nil =>
      rw [propLoopF] at h
      obtain rfl : w = res := Option.some.inj h
      refine ⟨rfl, ?_⟩
      intro k hk hk2
      have hmem := List.getElem_mem hk
      have hp : (w.notes[k]).id ∈ p := by
        rcases hcov _ hmem with hin | hin
        · exact hin
        · cases hin
      exact ⟨rfl, by rw [if_pos hp], hinv _ hmem⟩
  | succ f ih =>
    intro w q p res h hnd hinv hcov
    cases q with
    | nil =>
      rw [propLoopF] at h
      obtain rfl : w = res := Option.some.inj h
      refine ⟨rfl, ?_⟩
      intro k hk hk2
      have hmem := List.getElem_mem hk
      have hp : (w.notes[k]).id ∈ p := by
        rcases hcov _ hmem with hin | hin
        · exact hin
        · cases hin
      exact ⟨rfl, by rw [if_pos hp], hinv _ hmem⟩
    | cons i rest =>
      rw [propLoopF] at h
      by_cases hip : i ∈ p
      · rw [if_pos hip] at h
        apply ih _ _ _ _ h hnd hinv
        intro nt hnt
        rcases hcov nt hnt with hin | hin
        · exact Or.inl hin
        · rcases List.mem_cons.mp hin with heq | hin2
          · exact Or.inl (heq ▸ hip)
          · exact Or.inr hin2
      · rw [if_neg hip] at h
        cases hg : getNote w i with
        | none =>
          rw [hg] at h
          have hires : ¬ i ∈ w.notes.map Note.id := getNote_none_not_mem hg
          have hcov2 : ∀ nt ∈ w.notes, nt.id ∈ (i :: p) ∨ nt.id ∈ rest := by
            intro nt hnt
            rcases hcov nt hnt with hin | hin
            · exact Or.inl (List.mem_cons_of_mem _ hin)
            · rcases List.mem_cons.mp hin with heq | hin2
              · exact Or.inl (heq ▸ List.mem_cons_self _ _)
              · exact Or.inr hin2
          obtain ⟨hlen, hall⟩ := ih _ _ _ _ h hnd hinv hcov2
          refine ⟨hlen, ?_⟩
          intro k hk hk2
          obtain ⟨hid, htit, hun⟩ := hall k hk hk2
          refine ⟨hid, ?_, hun⟩
          rw [htit]
          have hne : (w.notes[k]).id ≠ i := by
            intro hcon
            exact hires (List.mem_map.mpr ⟨_, List.getElem_mem hk, hcon⟩)
          by_cases hcase : (w.notes[k]).id ∈ p
          · rw [if_pos (List.mem_cons_of_mem _ hcase), if_pos hcase]
          · have hnotin : ¬ (w.notes[k]).id ∈ i :: p := by
              intro hx
              rcases List.mem_cons.mp hx with heq | hx2
              · exact hne heq
              · exact hcase hx2
            rw [if_neg hnotin, if_neg hcase]
        | some note =>
          rw [hg] at h
          dsimp only at h
          obtain ⟨hnotemem, hnoteid⟩ := getNote_mem hg
          have hcov2 : ∀ nt ∈ w.notes, nt.id ∈ (i :: p) ∨ nt.id ∈ rest := by
            intro nt hnt
            rcases hcov nt hnt with hin | hin
            · exact Or.inl (List.mem_cons_of_mem _ hin)
            · rcases List.mem_cons.mp hin with heq | hin2
              · exact Or.inl (heq ▸ List.mem_cons_self _ _)
              · exact Or.inr hin2
          by_cases hoc : hasSub o note.title = false
          · rw [if_pos hoc] at h
            obtain ⟨hlen, hall⟩ := ih _ _ _ _ h hnd hinv hcov2
            refine ⟨hlen, ?_⟩
            intro k hk hk2
            obtain ⟨hid, htit, hun⟩ := hall k hk hk2
            refine ⟨hid, ?_, hun⟩
            rw [htit]
            by_cases hcase : (w.notes[k]).id = i
            · have hkeq : w.notes[k] = note :=
                nodup_id_unique w.notes hnd _ note (List.getElem_mem hk) hnotemem
                  (by rw [hcase, hnoteid])
              rw [if_pos (by rw [hcase]; exact List.mem_cons_self _ _), if_neg (by
                rw [hcase]; exact hip)]
              rw [hkeq, replaceAll_no_occ o n note.title hoc]
            · by_cases hcase2 : (w.notes[k]).id ∈ p
              · rw [if_pos (List.mem_cons_of_mem _ hcase2), if_pos hcase2]
              · have hnotin : ¬ (w.notes[k]).id ∈ i :: p := by
                  intro hx
                  rcases List.mem_cons.mp hx with heq | hx2
                  · exact hcase heq
                  · exact hcase2 hx2
                rw [if_neg hnotin, if_neg hcase2]
          · rw [if_neg hoc] at h
            have hsplit : ∃ q2,
                propLoopF o n f
                  (rewriteNote w i (replaceAll o n note.title) note.uname) q2 (i :: p)
                  = some res ∧ ∀ j ∈ rest, j ∈ q2 := by
              by_cases hsame :
                  (note.uname == parseUname (replaceAll o n note.title)) = true
              · rw [if_pos hsame] at h
                exact ⟨rest, h, fun j hj => hj⟩
              · rw [if_neg hsame] at h
                exact ⟨_, h, fun j hj => List.mem_append.mpr (Or.inr hj)⟩
            obtain ⟨q2, h2, hq2⟩ := hsplit
            have hnd1 : (((rewriteNote w i (replaceAll o n note.title)
                note.uname).notes.map Note.id)).Nodup := by
              rw [rewriteNote_ids]; exact hnd
            have hinv1 : ∀ nt ∈ (rewriteNote w i (replaceAll o n note.title)
                note.uname).notes, nt.uname = parseUname nt.title :=
              rewriteNote_inv w i _ _ hinv
            have hcov1 : ∀ nt ∈ (rewriteNote w i (replaceAll o n note.title)
                note.uname).notes, nt.id ∈ (i :: p) ∨ nt.id ∈ q2 := by
              intro nt1 hnt1
              have hidmem : nt1.id ∈ w.notes.map Note.id := by
                rw [← rewriteNote_ids w i (replaceAll o n note.title) note.uname]
                exact List.mem_map.mpr ⟨nt1, hnt1, rfl⟩
              obtain ⟨nt0, h0, hideq⟩ := List.mem_map.mp hidmem
              rw [← hideq]
              rcases hcov2 nt0 h0 with hin | hin
              · exact Or.inl hin
              · exact Or.inr (hq2 _ hin)
            obtain ⟨hlen1, hall1⟩ := ih _ _ _ _ h2 hnd1 hinv1 hcov1
            rw [rewriteNote_length] at hlen1
            refine ⟨hlen1, ?_⟩
            intro k hk hk2
            have hk1 : k < (rewriteNote w i (replaceAll o n note.title)
                note.uname).notes.length := by
              rw [rewriteNote_length]; exact hk
            obtain ⟨hid1, htit1, hun1⟩ := hall1 k hk1 hk2
            have hgetk := rewriteNote_getElem w i (replaceAll o n note.title)
              note.uname k hk hk1
            by_cases hcase : (w.notes[k]).id = i
            · have hkeq : w.notes[k] = note :=
                nodup_id_unique w.notes hnd _ note (List.getElem_mem hk) hnotemem
                  (by rw [hcase, hnoteid])
              have hbeq : ((w.notes[k]).id == i) = true := by
                rw [hcase]; exact beq_self_eq_true _
              rw [hgetk, if_pos hbeq] at hid1 htit1
              refine ⟨?_, ?_, hun1⟩
              · rw [hid1]
              · have hmem2 : (w.notes[k]).id ∈ i :: p := by
                  rw [hcase]; exact List.mem_cons_self _ _
                have hnp : ¬ (w.notes[k]).id ∈ p := by
                  rw [hcase]; exact hip
                rw [htit1, if_pos hmem2, if_neg hnp, hkeq]
            · have hbeq : ((w.notes[k]).id == i) = false :=
                beq_eq_false_iff_ne.mpr hcase
              rw [hgetk, hbeq] at hid1 htit1
              simp only [Bool.false_eq_true, if_false] at hid1 htit1
              refine ⟨hid1, ?_, hun1⟩
              rw [htit1]
              by_cases hcase2 : (w.notes[k]).id ∈ p
              · rw [if_pos (List.mem_cons_of_mem _ hcase2), if_pos hcase2]
              · have hnotin : ¬ (w.notes[k]).id ∈ i :: p := by
                  intro hx
                  rcases List.mem_cons.mp hx with heq | hx2
                  · exact hcase heq
                  · exact hcase2 hx2
                rw [if_neg hnotin, if_neg hcase2]


/-- **C3 (amended)**: (a) rename with a title textually identical to the
note's current valid title — when the name index maps that name to this
note — returns success and leaves the graph observationally unchanged
(equal notes, equal counter, extensionally equal index), with no
propagation; (b) after a successful rename, a second rename with the
same new title is likewise success and an observational no-op, provided
the index still maps the new name to the note (propagation collisions
can reassign it); (c) after any successful rename, every note other
than the edited one has its title replaced by the replace-all of the
old marker with the new marker (so a second propagation with the same
pair finds nothing new to do), while the edited note's own title is the
new title, which may itself still embed the old marker text — the
original parenthetical fails there. -/
theorem claim3_amended (w : Wiki) (i : Nat) (t : List Char) :
    (∀ nt, getNote w i = some nt → nt.title = t → nt.uname = parseUname t →
      isTitleValid t = true → parseUname t ≠ [] →
      umFind w.uname_to_id (parseUname t) = some i →
      (w.notes.map Note.id).Nodup →
      (edit w i t).1 = WikiResult.ok ∧ stateEquiv (edit w i t).2 w) ∧
    ((edit w i t).1 = WikiResult.ok →
      (w.notes.map Note.id).Nodup →
      umFind (edit w i t).2.uname_to_id (parseUname t) = some i →
      (edit (edit w i t).2 i t).1 = WikiResult.ok ∧
      stateEquiv (edit (edit w i t).2 i t).2 (edit w i t).2) ∧
    ((edit w i t).1 = WikiResult.ok →
      (w.notes.map Note.id).Nodup →
      (∀ nt ∈ w.notes, nt.uname = parseUname nt.title) →
      ∀ nt0, getNote w i = some nt0 →
        (edit w i t).2.notes.length = w.notes.length ∧
        ∀ k (hk : k < w.notes.length) (hk2 : k < (edit w i t).2.notes.length),
          ((edit w i t).2.notes[k]).id = (w.notes[k]).id ∧
          ((edit w i t).2.notes[k]).title =
            (if (w.notes[k]).id = i then t
             else replaceAll (mkMarker nt0.uname) (mkMarker (parseUname t))
               (w.notes[k]).title)) := by
  refine ⟨?_, ?_, ?_⟩
  · intro nt hget htitle huname hval hne hfind hnd
    exact edit_same_noop w i nt t hget htitle huname hval hne hfind hnd
  · intro hok hnd hfind2
    obtain ⟨nt, hget, hval, hne, hedit⟩ := edit_ok_cases w i t hok
    have hget2 : getNote (edit w i t).2 i =
        some { id := i, title := t, uname := parseUname t } := edit_ok_note w i t hok
    have hnd2 : ((edit w i t).2.notes.map Note.id).Nodup := by
      rw [edit_ids w i t hok]; exact hnd
    exact edit_same_noop (edit w i t).2 i { id := i, title := t, uname := parseUname t } t
      hget2 rfl rfl hval hne hfind2 hnd2
  · intro hok hnd hinv nt0 hget0
    obtain ⟨nt, hget, hval, hne, hedit⟩ := edit_ok_cases w i t hok
    rw [hget] at hget0
    obtain rfl : nt = nt0 := Option.some.inj hget0
    rw [hedit]
    by_cases hsame : (nt.uname == parseUname t) = true
    · have h2 : (editApply w i nt t (parseUname t)).2 = rewriteNote w i t nt.uname := by
        rw [editApply, if_pos hsame]
      rw [h2]
      have hueq : nt.uname = parseUname t := eq_of_beq hsame
      refine ⟨rewriteNote_length w i t nt.uname, ?_⟩
      intro k hk hk2
      have hgetk := rewriteNote_getElem w i t nt.uname k hk hk2
      by_cases hcase : (w.notes[k]).id = i
      · have hb : ((w.notes[k]).id == i) = true := by
          rw [hcase]; exact beq_self_eq_true _
        rw [hgetk, if_pos hb]
        exact ⟨rfl, by rw [if_pos hcase]⟩
      · have hb : ((w.notes[k]).id == i) = false := beq_eq_false_iff_ne.mpr hcase
        rw [hgetk, hb]
        simp only [Bool.false_eq_true, if_false]
        refine ⟨by trivial, ?_⟩
        rw [if_neg hcase, hueq, replaceAll_self]
    · have h2 : (editApply w i nt t (parseUname t)).2 =
          propagate (rewriteNote w i t nt.uname) i (mkMarker nt.uname)
            (mkMarker (parseUname t)) := by
        rw [editApply, if_neg hsame]
      rw [h2]
      have hnd1 : (((rewriteNote w i t nt.uname).notes.map Note.id)).Nodup := by
        rw [rewriteNote_ids]; exact hnd
      have hinv1 : ∀ nt2 ∈ (rewriteNote w i t nt.uname).notes,
          nt2.uname = parseUname nt2.title := rewriteNote_inv w i t nt.uname hinv
      have hcov1 : ∀ nt2 ∈ (rewriteNote w i t nt.uname).notes,
          nt2.id ∈ [i] ∨ nt2.id ∈ (rewriteNote w i t nt.uname).notes.map Note.id :=
        fun nt2 hnt2 => Or.inr (List.mem_map.mpr ⟨nt2, hnt2, rfl⟩)
      obtain ⟨hlen, hall⟩ := propLoopF_titles (mkMarker nt.uname)
        (mkMarker (parseUname t)) (fuelBound (rewriteNote w i t nt.uname))
        (rewriteNote w i t nt.uname)
        ((rewriteNote w i t nt.uname).notes.map Note.id) [i]
        (propagate (rewriteNote w i t nt.uname) i (mkMarker nt.uname)
          (mkMarker (parseUname t)))
        (propagate_eq _ _ _ _) hnd1 hinv1 hcov1
      rw [rewriteNote_length] at hlen
      refine ⟨hlen, ?_⟩
      intro k hk hk2
      have hk1 : k < (rewriteNote w i t nt.uname).notes.length := by
        rw [rewriteNote_length]; exact hk
      obtain ⟨hid1, htit1, -⟩ := hall k hk1 hk2
      have hgetk := rewriteNote_getElem w i t nt.uname k hk hk1
      rw [hgetk] at hid1 htit1
      by_cases hcase : (w.notes[k]).id = i
      · have hb : ((w.notes[k]).id == i) = true := by
          rw [hcase]; exact beq_self_eq_true _
        rw [if_pos hb] at hid1 htit1
        have hcmem : (Note.mk (w.notes[k]).id t (parseUname t)).id ∈ [i] := by
          show (w.notes[k]).id ∈ [i]
          rw [hcase]
          exact List.mem_singleton.mpr rfl
        rw [if_pos hcmem] at htit1
        refine ⟨hid1, ?_⟩
        rw [if_pos hcase]
        exact htit1
      · have hb : ((w.notes[k]).id == i) = false := beq_eq_false_iff_ne.mpr hcase
        rw [hb] at hid1 htit1
        simp only [Bool.false_eq_true, if_false] at hid1 htit1
        have hcnot : ¬ (w.notes[k]).id ∈ [i] := by
          rw [List.mem_singleton]
          exact hcase
        rw [if_neg hcnot] at htit1
        refine ⟨hid1, ?_⟩
        rw [if_neg hcase]
        exact htit1

/-- **C3 (witness)**: renaming the single note `A` to its identical
title succeeds and leaves the note table unchanged; repeating the
successful rename is again a success. -/
theorem claim3_witness :
    ((edit c3base 1 ("A".toList)).1 = WikiResult.ok ∧
     (edit c3base 1 ("A".toList)).2.notes = c3base.notes) ∧
    (edit (edit c3base 1 ("A".toList)).2 1 ("A".toList)).1 = WikiResult.ok ∧
    (edit c3base 1 ("A".toList)).2.notes.length = c3base.notes.length := by
  have ha := (claim3_amended c3base 1 ("A".toList)).1
    { id := 1, title := "A".toList, uname := "A".toList }
    (by decide) (by decide) (by decide) (by decide) (by decide) (by decide) (by decide)
  have hb := (claim3_amended c3base 1 ("A".toList)).2.1
    (by decide) (by decide) (by decide)
  have hc := (claim3_amended c3base 1 ("A".toList)).2.2
    (by decide) (by decide) (by decide)
    { id := 1, title := "A".toList, uname := "A".toList } (by decide)
  exact ⟨⟨ha.1, ha.2.1⟩, hb.1, hc.1⟩
